import Mathlib

/-!
Verification development for the embed-metadata plugin.

The definitions below are a shallow embedding of the TypeScript sources:
  - src/metadata-utils.ts    (dot-path frontmatter resolution, value formatting,
                              built-in keys, memoizing resolver)
  - src/editor-metadata.ts   (Live Preview decoration pass: marker scanning,
                              fence / inline-code containment, emphasis ranges,
                              cursor handling, line cache, plugin update step)
  - src/metadata-renderer.ts (Reading view text-node substitution)

JavaScript objects are modelled as association lists in insertion order
(JS objects preserve string-key insertion order), JS strings as Lean
strings, and stateful caches as explicitly threaded values.  Fallible
lookups returning null/undefined are modelled with Option.
-/

/-- Frontmatter values: the YAML-derived data model (scalars, sequences,
nested mappings).  Mirrors the `unknown` values walked by
resolveFrontmatterValue in metadata-utils.ts. -/
inductive FmValue where
  | vNull : FmValue
  | vBool (b : Bool) : FmValue
  | vInt (n : Int) : FmValue
  | vStr (s : String) : FmValue
  | vArr (items : List FmValue) : FmValue
  | vObj (fields : List (String × FmValue)) : FmValue

/-- JSON string escaping as performed by JSON.stringify for the characters
relevant here (quote, backslash, and the common control characters). -/
def jsonEscapeChar (c : Char) : String :=
  if c = '"' then "\\\""
  else if c = '\\' then "\\\\"
  else if c = '\n' then "\\n"
  else if c = '\t' then "\\t"
  else if c = '\r' then "\\r"
  else String.singleton c

def jsonEscape (s : String) : String :=
  String.join (s.toList.map jsonEscapeChar)

mutual

/-- Compact JSON rendering of a value, as produced by JSON.stringify in
formatFrontmatterValue (metadata-utils.ts line 287). -/
def jsonStringify : FmValue → String
  | FmValue.vNull => "null"
  | FmValue.vBool b => if b then "true" else "false"
  | FmValue.vInt n => toString n
  | FmValue.vStr s => "\"" ++ jsonEscape s ++ "\""
  | FmValue.vArr items => "[" ++ String.intercalate "," (jsonStringifyList items) ++ "]"
  | FmValue.vObj fields => "\x7b" ++ String.intercalate "," (jsonStringifyFields fields) ++ "\x7d"

def jsonStringifyList : List FmValue → List String
  | [] => []
  | v :: vs => jsonStringify v :: jsonStringifyList vs

def jsonStringifyFields : List (String × FmValue) → List String
  | [] => []
  | (k, v) :: fs => ("\"" ++ jsonEscape k ++ "\":" ++ jsonStringify v) :: jsonStringifyFields fs

end

mutual

/-- formatFrontmatterValue (metadata-utils.ts lines 281-291): arrays render
as the comma-joined formatted elements with empty renderings dropped
(filter(Boolean)); non-null objects render as compact JSON; everything else
via String(value) — String(null) is the string "null". -/
def formatFrontmatterValue : FmValue → String
  | FmValue.vArr items =>
      String.intercalate ", " ((formatFrontmatterList items).filter (fun s => s ≠ ""))
  | FmValue.vObj fields => jsonStringify (FmValue.vObj fields)
  | FmValue.vNull => "null"
  | FmValue.vBool b => if b then "true" else "false"
  | FmValue.vInt n => toString n
  | FmValue.vStr s => s

def formatFrontmatterList : List FmValue → List String
  | [] => []
  | v :: vs => formatFrontmatterValue v :: formatFrontmatterList vs

end

/-- JS String.prototype.split with a single-character separator, on char
lists: "a.b" gives ["a","b"], "" gives [""], "." gives ["",""]. -/
def splitOnChar (c : Char) : List Char → List (List Char)
  | [] => [[]]
  | x :: xs =>
    match splitOnChar c xs with
    | [] => [[]]
    | g :: gs => if x = c then [] :: g :: gs else (x :: g) :: gs

/-- JS String.prototype.trim: strip leading and trailing whitespace. -/
def jsTrim (cs : List Char) : List Char :=
  ((cs.dropWhile Char.isWhitespace).reverse.dropWhile Char.isWhitespace).reverse

/-- JS String.prototype.toLowerCase (ASCII case folding suffices here). -/
def jsToLower (s : String) : String :=
  String.mk (s.data.map Char.toLower)

/-- The key-path segmentation of resolveFrontmatterValue (metadata-utils.ts
lines 227-230): split on dots, trim each segment, drop empty segments. -/
def splitParts (keyPath : String) : List String :=
  (((splitOnChar '.' keyPath.data).map (fun part => String.mk (jsTrim part))).filter
    (fun part => part ≠ ""))

/-- getCaseInsensitiveKey without a keyMapCache (metadata-utils.ts line 265):
Object.keys(record).find — the FIRST key whose lowercasing matches. -/
def findCaseKey (fields : List (String × FmValue)) (part : String) : Option String :=
  (fields.map Prod.fst).find? (fun k => jsToLower k = jsToLower part)

/-- getCaseInsensitiveKey with a keyMapCache (metadata-utils.ts lines
268-277): the Map is built by iterating Object.keys in order and calling
keyMap.set(key.toLowerCase(), key); Map.set overwrites, so the LAST key
with a given lowercasing wins.  Looking it up is therefore finding the
first matching key of the reversed key list. -/
def mapCaseKey (fields : List (String × FmValue)) (part : String) : Option String :=
  (fields.map Prod.fst).reverse.find? (fun k => jsToLower k = jsToLower part)

/-- getCaseInsensitiveKey (metadata-utils.ts lines 258-278); useKeyMap says
whether a keyMapCache was supplied by the caller. -/
def getCaseInsensitiveKey (useKeyMap : Bool) (fields : List (String × FmValue))
    (part : String) : Option String :=
  if useKeyMap then mapCaseKey fields part else findCaseKey fields part

/-- The walk loop of resolveFrontmatterValue (metadata-utils.ts lines
231-255).  A non-object node (null, scalar or array) fails; an exact key
match descends; otherwise, in case-insensitive mode, a case-folded key
match descends; otherwise the result is undefined (none). -/
def resolveValueGo (ci useKeyMap : Bool) : FmValue → List String → Option FmValue
  | cur, [] => some cur
  | cur, part :: rest =>
    match cur with
    | FmValue.vObj fields =>
      match fields.lookup part with
      | some v => resolveValueGo ci useKeyMap v rest
      | none =>
        if ci then
          match getCaseInsensitiveKey useKeyMap fields part with
          | some k =>
            match fields.lookup k with
            | some v => resolveValueGo ci useKeyMap v rest
            | none => none
          | none => none
        else none
    | _ => none

/-- resolveFrontmatterValue (metadata-utils.ts lines 221-256). -/
def resolveFrontmatterValue (frontmatter : List (String × FmValue)) (keyPath : String)
    (ci useKeyMap : Bool) : Option FmValue :=
  resolveValueGo ci useKeyMap (FmValue.vObj frontmatter) (splitParts keyPath)

/-- resolveFrontmatterString (metadata-utils.ts lines 108-122): undefined
resolves to absent (none); null to the empty string; anything else to its
formatted rendering. -/
def resolveFrontmatterString (frontmatter : List (String × FmValue)) (keyPath : String)
    (ci useKeyMap : Bool) : Option String :=
  match resolveFrontmatterValue frontmatter keyPath ci useKeyMap with
  | none => none
  | some FmValue.vNull => some ""
  | some v => some (formatFrontmatterValue v)

/-- The document identity / stat attributes of an Obsidian TFile that the
built-in keys read (metadata-utils.ts lines 188-218). -/
structure TFileModel where
  name : String
  basename : String
  path : String
  parentPath : Option String
  ctime : Nat
  mtime : Nat
  fileExtension : String

/-- resolveBuiltInValue (metadata-utils.ts lines 188-214).  Only dot-free,
non-empty keys match; ctime/mtime format through toLocaleString, which is
environment-defined and therefore passed in as dateFmt. -/
def resolveBuiltInValue (dateFmt : Nat → String) (file : TFileModel) (keyPath : String)
    (ci : Bool) : Option String :=
  let key := if ci then jsToLower keyPath else keyPath
  if key = "" ∨ key.data.contains '.' then none
  else if key = "filename" then some file.name
  else if key = "basename" then some file.basename
  else if key = "extension" then some file.fileExtension
  else if key = "path" then some file.path
  else if key = "folder" then some (file.parentPath.getD "")
  else if key = "link" then some ("[[" ++ file.path ++ "|" ++ file.basename ++ "]]")
  else if key = "ctime" then some (dateFmt file.ctime)
  else if key = "mtime" then some (dateFmt file.mtime)
  else none

/-- The fixed configuration captured by a resolver closure from
createFrontmatterResolver (metadata-utils.ts lines 125-130). -/
structure ResolverConfig where
  frontmatter : List (String × FmValue)
  caseInsensitive : Bool
  file : Option TFileModel
  builtInKeysEnabled : Bool
  dateFmt : Nat → String

/-- One uncached resolution as performed by the closure body of
createFrontmatterResolver (metadata-utils.ts lines 146-159): mapping
resolution first (with the keyMapCache supplied exactly when
caseInsensitive), then built-in fallback when built-ins are enabled and a
file is available, else absent.  The keyMapCache only memoizes per-node
case-fold indexes over the immutable mapping, so its effect is fully
captured by the useKeyMap flag of resolveFrontmatterString. -/
def freshResolve (cfg : ResolverConfig) (keyPath : String) : Option String :=
  match resolveFrontmatterString cfg.frontmatter keyPath cfg.caseInsensitive cfg.caseInsensitive with
  | some v => some v
  | none =>
    if cfg.builtInKeysEnabled then
      match cfg.file with
      | some f => resolveBuiltInValue cfg.dateFmt f keyPath cfg.caseInsensitive
      | none => none
    else none

/-- The per-render value cache of a resolver closure: keyPath to final
outcome (including the absent outcome none). -/
def ValueCache : Type := List (String × Option String)

/-- One call of the resolver closure (metadata-utils.ts lines 134-160):
a cache hit returns the stored outcome; otherwise the outcome is computed
and stored (in every branch of the closure body). -/
def resolverStep (cfg : ResolverConfig) (cache : List (String × Option String))
    (keyPath : String) : Option String × List (String × Option String) :=
  match cache.lookup keyPath with
  | some v => (v, cache)
  | none =>
    let v := freshResolve cfg keyPath
    (v, (keyPath, v) :: cache)

/-- The fully uncached resolution described by the specification: mapping
resolution without any key-map cache, then built-in fallback.  Used to
compare the memoized resolver against a from-scratch resolution. -/
def specNonMemoizedResolve (cfg : ResolverConfig) (keyPath : String) : Option String :=
  match resolveFrontmatterString cfg.frontmatter keyPath cfg.caseInsensitive false with
  | some v => some v
  | none =>
    if cfg.builtInKeysEnabled then
      match cfg.file with
      | some f => resolveBuiltInValue cfg.dateFmt f keyPath cfg.caseInsensitive
      | none => none
    else none

/-- The two supported marker syntax styles (metadata-utils.ts line 5). -/
inductive SyntaxStyle where
  | brackets : SyntaxStyle
  | doubleBraces : SyntaxStyle
deriving DecidableEq

/-- getSyntaxOpen (metadata-utils.ts lines 29-31). -/
def getSyntaxOpen (style : SyntaxStyle) : String :=
  match style with
  | SyntaxStyle.doubleBraces => "\x7b\x7b"
  | SyntaxStyle.brackets => "[%"

/-- getSyntaxClose (metadata-utils.ts lines 34-36). -/
def getSyntaxClose (style : SyntaxStyle) : String :=
  match style with
  | SyntaxStyle.doubleBraces => "\x7d\x7d"
  | SyntaxStyle.brackets => "]"

/-- The characters excluded from a marker key by the full-match regex
(metadata-utils.ts lines 39-43): bracket style captures one or more chars
outside square brackets and percent; brace style outside curly braces. -/
def syntaxBodyExcluded (style : SyntaxStyle) : List Char :=
  match style with
  | SyntaxStyle.doubleBraces => ['\x7b', '\x7d']
  | SyntaxStyle.brackets => ['[', ']', '%']

/-- Whether pat occurs in cs starting at index i. -/
def sublistAt (cs : List Char) (i : Nat) (pat : List Char) : Bool :=
  (cs.drop i).take pat.length = pat

/-- JS String.prototype.includes. -/
def strIncludes (text pat : String) : Bool :=
  (List.range (text.data.length + 1)).any (fun i => sublistAt text.data i pat.data)

/-- One full-regex match: match.index, the end offset, and the captured
(untrimmed) key text. -/
structure RawMatch where
  mstart : Nat
  mstop : Nat
  rawKey : String
deriving DecidableEq

/-- The g-flag exec loop over the full-match regex of getSyntaxRegex: at
each start position the opener must match, the captured body is the maximal
nonempty run of non-excluded characters, and the closer must follow; a
successful match resumes scanning at its end (lastIndex), a failed start
position advances by one. -/
def scanRawAux (style : SyntaxStyle) (cs : List Char) : Nat → Nat → List RawMatch
  | _, 0 => []
  | i, fuel + 1 =>
    if i < cs.length then
      if sublistAt cs i (getSyntaxOpen style).data then
        let bodyStart := i + (getSyntaxOpen style).data.length
        let body := (cs.drop bodyStart).takeWhile (fun c => !(syntaxBodyExcluded style).contains c)
        let closeStart := bodyStart + body.length
        if body ≠ [] ∧ sublistAt cs closeStart (getSyntaxClose style).data then
          let stop := closeStart + (getSyntaxClose style).data.length
          ⟨i, stop, String.mk body⟩ :: scanRawAux style cs stop fuel
        else
          scanRawAux style cs (i + 1) fuel
      else
        scanRawAux style cs (i + 1) fuel
    else []

/-- All matches of the full-match regex in a line of text. -/
def scanRawMatches (style : SyntaxStyle) (text : String) : List RawMatch :=
  scanRawAux style text.data 0 (text.data.length + 1)

/-- A located marker: start and end offsets within the line and the trimmed
key (editor-metadata.ts lines 10-14). -/
structure LineMarker where
  mfrom : Nat
  mto : Nat
  key : String
deriving DecidableEq

/-- The marker list computed by the scan loop of getLineMarkers
(editor-metadata.ts lines 252-266): no opener in the line means no markers;
otherwise every regex match whose trimmed key is nonempty becomes a marker.
(The JS loop skips empty-trim matches with continue, which still advances
lastIndex, so filtering after the full scan is the same list.) -/
def computeLineMarkers (style : SyntaxStyle) (text : String) : List LineMarker :=
  if strIncludes text (getSyntaxOpen style) then
    (scanRawMatches style text).filterMap (fun m =>
      let key := String.mk (jsTrim m.rawKey.data)
      if key = "" then none else some ⟨m.mstart, m.mstop, key⟩)
  else []

/-- The backtick character (written by code to keep it out of char
literals). -/
def backtickChar : Char := Char.ofNat 96

/-- Fenced code-block state (editor-metadata.ts lines 28-32). -/
structure FenceState where
  inFence : Bool
  fenceChar : String
  fenceLen : Nat
deriving DecidableEq

def initialFenceState : FenceState :=
  { inFence := false, fenceChar := "", fenceLen := 0 }

/-- The capture of the fence regex: optional leading whitespace, then a run
of at least three backtick/tilde characters (the character class admits a
mixed run; the capture is the maximal run). -/
def fenceCapture (lineText : String) : Option (List Char) :=
  let run := (lineText.data.dropWhile Char.isWhitespace).takeWhile
      (fun c => c = backtickChar ∨ c = '~')
  if 3 ≤ run.length then some run else none

/-- updateFenceStateForLine (editor-metadata.ts lines 296-322): lineInFence
is the state before the line; a fence line opens a fence when none is open
(recording first character and run length) and closes an open fence only
with the same character and a run at least as long. -/
def updateFenceStateForLine (lineText : String) (state : FenceState) :
    (Bool × Bool) × FenceState :=
  let wasInFence := state.inFence
  match fenceCapture lineText with
  | none => ((wasInFence, false), state)
  | some marker =>
    let fenceChar := String.mk (marker.take 1)
    let fenceLen := marker.length
    if !state.inFence then
      ((wasInFence, true), { inFence := true, fenceChar := fenceChar, fenceLen := fenceLen })
    else if fenceChar ≠ "" ∧ fenceChar = state.fenceChar ∧ state.fenceLen ≤ fenceLen then
      ((wasInFence, true), initialFenceState)
    else
      ((wasInFence, true), state)

/-- getFenceStateBeforeLine (editor-metadata.ts lines 288-294): replay the
fence transition over all lines strictly before the given 1-based line. -/
def getFenceStateBeforeLine (doc : List String) (lineNumber : Nat) : FenceState :=
  (doc.take (lineNumber - 1)).foldl (fun st t => (updateFenceStateForLine t st).2)
    initialFenceState

/-- rangesOverlap (editor-metadata.ts lines 568-573). -/
def rangesOverlap (f t s e : Nat) : Bool :=
  if f = t then decide (s ≤ f) && decide (f ≤ e)
  else decide (s < t) && decide (f < e)

/-- An inline code-span range (editor-metadata.ts line 324). -/
structure InlineCodeRange where
  rfrom : Nat
  rto : Nat
deriving DecidableEq

/-- The scan loop of getInlineCodeRanges (editor-metadata.ts lines
328-358): backtick runs pair up when a later run has exactly the length of
the open run; unequal runs neither open nor close. -/
def getInlineCodeRangesAux (cs : List Char) :
    Nat → Option (Nat × Nat) → Nat → List InlineCodeRange
  | _, _, 0 => []
  | i, openTicks, fuel + 1 =>
    if i < cs.length then
      if cs.getD i (Char.ofNat 0) ≠ backtickChar then
        getInlineCodeRangesAux cs (i + 1) openTicks fuel
      else
        let run := ((cs.drop i).takeWhile (fun c => c = backtickChar)).length
        let j := i + run
        match openTicks with
        | none => getInlineCodeRangesAux cs j (some (i, run)) fuel
        | some (openStart, openLen) =>
          if run = openLen then
            ⟨openStart, j⟩ :: getInlineCodeRangesAux cs j none fuel
          else
            getInlineCodeRangesAux cs j (some (openStart, openLen)) fuel
    else []

def getInlineCodeRanges (text : String) : List InlineCodeRange :=
  getInlineCodeRangesAux text.data 0 none (text.data.length + 1)

/-- isMarkerInInlineCode (editor-metadata.ts lines 360-367). -/
def isMarkerInInlineCode (marker : LineMarker) (ranges : List InlineCodeRange) : Bool :=
  ranges.any (fun r => rangesOverlap marker.mfrom marker.mto r.rfrom r.rto)

/-- findInlineRangeAt (editor-metadata.ts lines 448-455). -/
def findInlineRangeAt (pos : Nat) (ranges : List InlineCodeRange) : Option InlineCodeRange :=
  ranges.find? (fun r => decide (r.rfrom ≤ pos) && decide (pos < r.rto))

/-- A strikethrough/highlight range (editor-metadata.ts line 326). -/
structure DelimitedRange where
  rfrom : Nat
  rto : Nat
deriving DecidableEq

/-- The scan loop of getDelimitedRanges (editor-metadata.ts lines 369-401):
positions inside inline code are skipped; occurrences of the fixed
delimiter alternately open and close, a closing occurrence emitting the
range between the two delimiters. -/
def getDelimitedRangesAux (cs d : List Char) (code : List InlineCodeRange) :
    Nat → Option Nat → Nat → List DelimitedRange
  | _, _, 0 => []
  | i, openStart, fuel + 1 =>
    if i + d.length ≤ cs.length then
      match findInlineRangeAt i code with
      | some r => getDelimitedRangesAux cs d code r.rto openStart fuel
      | none =>
        if (cs.drop i).take d.length = d then
          match openStart with
          | none => getDelimitedRangesAux cs d code (i + d.length) (some i) fuel
          | some os =>
            ⟨os + d.length, i⟩ :: getDelimitedRangesAux cs d code (i + d.length) none fuel
        else
          getDelimitedRangesAux cs d code (i + 1) openStart fuel
    else []

def getDelimitedRanges (text : String) (delimiter : String)
    (code : List InlineCodeRange) : List DelimitedRange :=
  getDelimitedRangesAux text.data delimiter.data code 0 none (text.data.length + 1)

/-- An emphasis range with its style flags (editor-metadata.ts line 325). -/
structure EmphasisRange where
  rfrom : Nat
  rto : Nat
  italic : Bool
  bold : Bool
deriving DecidableEq

/-- A pending delimiter run on the emphasis stack (editor-metadata.ts
line 405). -/
structure EmphEntry where
  ch : Char
  len : Nat
  pos : Nat
deriving DecidableEq

/-- The scan loop of getEmphasisRanges (editor-metadata.ts lines 403-446):
runs of star/underscore (length capped at 3) close the stack top exactly
when character and capped length agree, emitting a range whose flags follow
the capped length (1 italic, 2 bold, 3 both); otherwise the run is pushed.
Positions inside inline code are skipped. -/
def getEmphasisRangesAux (cs : List Char) (code : List InlineCodeRange) :
    Nat → List EmphEntry → Nat → List EmphasisRange
  | _, _, 0 => []
  | i, stack, fuel + 1 =>
    if i < cs.length then
      match findInlineRangeAt i code with
      | some r => getEmphasisRangesAux cs code r.rto stack fuel
      | none =>
        let ch := cs.getD i (Char.ofNat 0)
        if ch ≠ '*' ∧ ch ≠ '_' then
          getEmphasisRangesAux cs code (i + 1) stack fuel
        else
          let run := ((cs.drop i).takeWhile (fun c => c = ch)).length
          let j := i + run
          let len := min run 3
          match stack with
          | top :: rest =>
            if top.ch = ch ∧ top.len = len then
              ⟨top.pos + top.len, i, decide (len = 1 ∨ len = 3), decide (len = 2 ∨ len = 3)⟩ ::
                getEmphasisRangesAux cs code j rest fuel
            else
              getEmphasisRangesAux cs code j (⟨ch, len, i⟩ :: stack) fuel
          | [] => getEmphasisRangesAux cs code j (⟨ch, len, i⟩ :: stack) fuel
    else []

def getEmphasisRanges (text : String) (code : List InlineCodeRange) : List EmphasisRange :=
  getEmphasisRangesAux text.data code 0 [] (text.data.length + 1)

/-- maskMarkerText (editor-metadata.ts lines 272-286): replace every
character lying inside some marker span with the filler x, leaving the
string length unchanged.  (The JS loop mutates a char array marker by
marker; the result at index i is x exactly when some marker covers i.) -/
def maskChars (markers : List LineMarker) : List Char → Nat → List Char
  | [], _ => []
  | c :: cs, i =>
    (if markers.any (fun m => decide (m.mfrom ≤ i) && decide (i < m.mto)) then 'x' else c) ::
      maskChars markers cs (i + 1)

def maskMarkerText (text : String) (markers : List LineMarker) : String :=
  if markers.isEmpty then text
  else String.mk (maskChars markers text.data 0)

/-- The inline-markdown style derived for a marker (editor-metadata.ts
lines 21-26). -/
structure MarkdownStyle where
  italic : Bool
  bold : Bool
  strike : Bool
  highlight : Bool
deriving DecidableEq

/-- getMarkdownStyleForMarker (editor-metadata.ts lines 457-490): each flag
is the disjunction of the flags of the ranges the marker overlaps. -/
def getMarkdownStyleForMarker (marker : LineMarker) (emphasisRanges : List EmphasisRange)
    (strikeRanges highlightRanges : List DelimitedRange) : MarkdownStyle :=
  { italic := emphasisRanges.any (fun r =>
      rangesOverlap marker.mfrom marker.mto r.rfrom r.rto && r.italic)
  , bold := emphasisRanges.any (fun r =>
      rangesOverlap marker.mfrom marker.mto r.rfrom r.rto && r.bold)
  , strike := strikeRanges.any (fun r =>
      rangesOverlap marker.mfrom marker.mto r.rfrom r.rto)
  , highlight := highlightRanges.any (fun r =>
      rangesOverlap marker.mfrom marker.mto r.rfrom r.rto) }

/-- A document is its list of lines (1-based numbering, newline separated),
mirroring the CodeMirror Text interface used by editor-metadata.ts. -/
def lineTextAt (doc : List String) (n : Nat) : String :=
  doc.getD (n - 1) ""

/-- Absolute offset of the start of 1-based line n (line.from). -/
def lineFrom (doc : List String) (n : Nat) : Nat :=
  ((doc.take (n - 1)).map (fun t => t.data.length + 1)).sum

/-- Total document length (doc.length in CodeMirror). -/
def docLength (doc : List String) : Nat :=
  ((doc.map (fun t => t.data.length + 1)).sum) - 1

/-- The 1-based line number containing an absolute position (doc.lineAt);
positions past the end clamp to the last line. -/
def lineAtPos : List String → Nat → Nat
  | [], _ => 1
  | t :: rest, pos =>
    match rest with
    | [] => 1
    | _ :: _ =>
      if pos ≤ t.data.length then 1 else 1 + lineAtPos rest (pos - t.data.length - 1)

/-- A line-cache entry (editor-metadata.ts lines 16-19): the text the line
had when scanned, and the markers found in it. -/
structure LineMarkers where
  text : String
  markers : List LineMarker
deriving DecidableEq

/-- JS Map.set on the line cache: replace in place or append. -/
def lineCacheSet : List (Nat × LineMarkers) → Nat → LineMarkers → List (Nat × LineMarkers)
  | [], n, e => [(n, e)]
  | (m, x) :: rest, n, e =>
    if m = n then (n, e) :: rest else (m, x) :: lineCacheSet rest n e

/-- getLineMarkers (editor-metadata.ts lines 240-270): a cache entry is
used only when its stored text equals the current line text; otherwise the
line is rescanned and the entry replaced. -/
def getLineMarkers (style : SyntaxStyle) (lineNumber : Nat) (text : String)
    (cache : List (Nat × LineMarkers)) : List LineMarker × List (Nat × LineMarkers) :=
  match cache.lookup lineNumber with
  | some e =>
    if e.text = text then (e.markers, cache)
    else
      let ms := computeLineMarkers style text
      (ms, lineCacheSet cache lineNumber ⟨text, ms⟩)
  | none =>
    let ms := computeLineMarkers style text
    (ms, lineCacheSet cache lineNumber ⟨text, ms⟩)

/-- pruneLineCache (editor-metadata.ts lines 492-498): drop entries whose
line number exceeds the new number of lines. -/
def pruneLineCache (cache : List (Nat × LineMarkers)) (maxLine : Nat) :
    List (Nat × LineMarkers) :=
  cache.filter (fun e => decide (e.1 ≤ maxLine))

/-- The plugin settings consumed by the decoration pass. -/
structure SettingsModel where
  syntaxStyle : SyntaxStyle
  caseInsensitiveKeys : Bool
  builtInKeysEnabled : Bool

/-- One replacement decoration produced by buildDecorations: the absolute
span, the widget payload (resolved value and inline-markdown style), and —
for specification purposes — the line number and line-local marker it came
from. -/
structure DecorationEntry where
  start : Nat
  stop : Nat
  value : String
  markdownStyle : MarkdownStyle
  line : Nat
  marker : LineMarker
deriving DecidableEq

/-- The mutable state threaded through one buildDecorations call: the
per-call seen-lines set and resolver value cache, and the persistent line
cache. -/
structure ScanState where
  seenLines : List Nat
  lineCache : List (Nat × LineMarkers)
  valueCache : List (String × Option String)

/-- The inner marker loop of buildDecorations (editor-metadata.ts lines
202-233): fence/code containment skips, caret-containment skips, absent
resolution skips; otherwise a replacement decoration is emitted. -/
def processMarkers (cfg : ResolverConfig) (selection : List (Nat × Nat)) (lineNumber : Nat)
    (lineFromAbs : Nat) (lineInFence isFenceLine : Bool) (codeRanges : List InlineCodeRange)
    (er : List EmphasisRange) (sr hr : List DelimitedRange) :
    List LineMarker → List (String × Option String) →
    List DecorationEntry × List (String × Option String)
  | [], vc => ([], vc)
  | marker :: rest, vc =>
    if lineInFence ∨ isFenceLine ∨ isMarkerInInlineCode marker codeRanges then
      processMarkers cfg selection lineNumber lineFromAbs lineInFence isFenceLine codeRanges
        er sr hr rest vc
    else
      let start := lineFromAbs + marker.mfrom
      let stop := lineFromAbs + marker.mto
      if selection.any (fun sel =>
          decide (sel.1 = sel.2) && decide (start ≤ sel.1) && decide (sel.2 ≤ stop)) then
        processMarkers cfg selection lineNumber lineFromAbs lineInFence isFenceLine codeRanges
          er sr hr rest vc
      else
        match resolverStep cfg vc marker.key with
        | (none, vc2) =>
          processMarkers cfg selection lineNumber lineFromAbs lineInFence isFenceLine codeRanges
            er sr hr rest vc2
        | (some value, vc2) =>
          let style := getMarkdownStyleForMarker marker er sr hr
          let (ds, vc3) := processMarkers cfg selection lineNumber lineFromAbs lineInFence
            isFenceLine codeRanges er sr hr rest vc2
          (⟨start, stop, value, style, lineNumber, marker⟩ :: ds, vc3)

/-- One line of the scan loop of buildDecorations (editor-metadata.ts
lines 176-234): update fence state, skip lines already seen, fetch markers
through the line cache, compute inline-code/emphasis context on the masked
text (empty inside fences), then run the marker loop. -/
def processLine (settings : SettingsModel) (cfg : ResolverConfig) (doc : List String)
    (selection : List (Nat × Nat)) (lineNumber : Nat) (fence : FenceState) (st : ScanState) :
    List DecorationEntry × FenceState × ScanState :=
  let text := lineTextAt doc lineNumber
  let fr := updateFenceStateForLine text fence
  let lineInFence := fr.1.1
  let isFenceLine := fr.1.2
  let fence2 := fr.2
  if st.seenLines.contains lineNumber then ([], fence2, st)
  else
    let seen2 := lineNumber :: st.seenLines
    let gm := getLineMarkers settings.syntaxStyle lineNumber text st.lineCache
    let markers := gm.1
    let cache2 := gm.2
    if markers = [] then
      ([], fence2, { seenLines := seen2, lineCache := cache2, valueCache := st.valueCache })
    else
      let codeRanges := if lineInFence ∨ isFenceLine then [] else getInlineCodeRanges text
      let maskedText := maskMarkerText text markers
      let er := if lineInFence ∨ isFenceLine then [] else getEmphasisRanges maskedText codeRanges
      let sr := if lineInFence ∨ isFenceLine then []
        else getDelimitedRanges maskedText "~~" codeRanges
      let hr := if lineInFence ∨ isFenceLine then []
        else getDelimitedRanges maskedText "==" codeRanges
      let pm := processMarkers cfg selection lineNumber (lineFrom doc lineNumber) lineInFence
        isFenceLine codeRanges er sr hr markers st.valueCache
      (pm.1, fence2, { seenLines := seen2, lineCache := cache2, valueCache := pm.2 })

/-- The per-range line loop (editor-metadata.ts lines 176-234), over count
lines starting at 1-based line n. -/
def processLinesFrom (settings : SettingsModel) (cfg : ResolverConfig) (doc : List String)
    (selection : List (Nat × Nat)) :
    Nat → Nat → FenceState → ScanState → List DecorationEntry × ScanState
  | _, 0, _, st => ([], st)
  | n, count + 1, fence, st =>
    let r1 := processLine settings cfg doc selection n fence st
    let r2 := processLinesFrom settings cfg doc selection (n + 1) count r1.2.1 r1.2.2
    (r1.1 ++ r2.1, r2.2)

/-- One visible (or full-document) range of the scan (editor-metadata.ts
lines 171-175): compute its first and last line, replay fence state up to
the first line, then walk the lines. -/
def processRange (settings : SettingsModel) (cfg : ResolverConfig) (doc : List String)
    (selection : List (Nat × Nat)) (range : Nat × Nat) (st : ScanState) :
    List DecorationEntry × ScanState :=
  let startLine := lineAtPos doc range.1
  let endLine := lineAtPos doc (max (range.2 - 1) range.1)
  let fence := getFenceStateBeforeLine doc startLine
  processLinesFrom settings cfg doc selection startLine (endLine + 1 - startLine) fence st

def processRanges (settings : SettingsModel) (cfg : ResolverConfig) (doc : List String)
    (selection : List (Nat × Nat)) :
    List (Nat × Nat) → ScanState → List DecorationEntry × ScanState
  | [], st => ([], st)
  | r :: rs, st =>
    let r1 := processRange settings cfg doc selection r st
    let r2 := processRanges settings cfg doc selection rs r1.2
    (r1.1 ++ r2.1, r2.2)

/-- buildDecorations (editor-metadata.ts lines 133-238): early-out when not
in Live Preview, when there is no file, or when there is neither
frontmatter nor enabled built-ins; otherwise scan either the full document
(forceFullScan) or the visible ranges with a fresh seen-set, a fresh
memoizing resolver, and the persistent line cache. -/
def buildDecorations (settings : SettingsModel) (dateFmt : Nat → String)
    (isLivePreview : Bool) (file : Option TFileModel)
    (frontmatter : Option (List (String × FmValue))) (doc : List String)
    (selection : List (Nat × Nat)) (visibleRanges : List (Nat × Nat)) (forceFullScan : Bool)
    (lineCache : List (Nat × LineMarkers)) : List DecorationEntry × ScanState :=
  if !isLivePreview then ([], ⟨[], lineCache, []⟩)
  else
    match file with
    | none => ([], ⟨[], lineCache, []⟩)
    | some f =>
      if frontmatter.isNone ∧ !settings.builtInKeysEnabled then ([], ⟨[], lineCache, []⟩)
      else
        let cfg : ResolverConfig :=
          ⟨frontmatter.getD [], settings.caseInsensitiveKeys, some f,
            settings.builtInKeysEnabled, dateFmt⟩
        let ranges := if forceFullScan then [(0, docLength doc)] else visibleRanges
        processRanges settings cfg doc selection ranges ⟨[], lineCache, []⟩

/-- Lexicographic comparison of strings by character code, the default JS
Array.prototype.sort order for the span keys below. -/
def charListLe : List Char → List Char → Bool
  | [], _ => true
  | _ :: _, [] => false
  | a :: as, b :: bs => if a = b then charListLe as bs else decide (a < b)

def insertStr (x : String) : List String → List String
  | [] => [x]
  | y :: ys => if charListLe x.data y.data then x :: y :: ys else y :: insertStr x ys

def sortStrings : List String → List String
  | [] => []
  | x :: xs => insertStr x (sortStrings xs)

/-- getCursorMarkerKey (editor-metadata.ts lines 595-629): for every
zero-width selection range, the first regex match of its line whose span
contains the caret contributes the string start:end (absolute offsets);
the keys are sorted and joined with a bar, the empty set giving "". -/
def getCursorMarkerKey (style : SyntaxStyle) (doc : List String)
    (selection : List (Nat × Nat)) : String :=
  let markerKeys := selection.filterMap (fun range =>
    if range.1 ≠ range.2 then none
    else
      let pos := range.1
      let n := lineAtPos doc pos
      let text := lineTextAt doc n
      if !strIncludes text (getSyntaxOpen style) then none
      else
        let lf := lineFrom doc n
        ((scanRawMatches style text).find? (fun m =>
            decide (lf + m.mstart ≤ pos) && decide (pos ≤ lf + m.mstop))).map
          (fun m => toString (lf + m.mstart) ++ ":" ++ toString (lf + m.mstop)))
  if markerKeys = [] then ""
  else String.intercalate "|" (sortStrings markerKeys)

/-- The fields of MetadataViewPlugin relevant to the update step
(editor-metadata.ts lines 60-76). -/
structure PluginState where
  syntaxStyle : SyntaxStyle
  cursorMarkerKey : String
  lineCache : List (Nat × LineMarkers)

/-- The parts of a CodeMirror ViewUpdate that MetadataViewPlugin.update
inspects.  changesTriggerRebuild abstracts shouldRebuildForChanges
(frontmatter-block or marker-span overlap of the edit), which the claims
treat as an opaque trigger. -/
structure ViewUpdateModel where
  docChanged : Bool
  viewportChanged : Bool
  selectionSet : Bool
  hasRefreshEffect : Bool
  changesTriggerRebuild : Bool
  doc : List String
  selection : List (Nat × Nat)

/-- MetadataViewPlugin.update (editor-metadata.ts lines 78-116), as a pure
step: the new plugin state plus the needsRebuild and forceFullScan flags
with which buildDecorations is invoked (when needsRebuild). -/
def updateStep (settingsStyle : SyntaxStyle) (ps : PluginState) (u : ViewUpdateModel) :
    PluginState × Bool × Bool :=
  let styleChanged := !(ps.syntaxStyle == settingsStyle)
  let style1 := if styleChanged then settingsStyle else ps.syntaxStyle
  let cache1 := if styleChanged then [] else ps.lineCache
  let cache2 := if u.docChanged then pruneLineCache cache1 u.doc.length else cache1
  let needs2 := styleChanged || (u.docChanged && u.changesTriggerRebuild)
  let needs3 := needs2 || u.viewportChanged
  let nextKey := getCursorMarkerKey settingsStyle u.doc u.selection
  let keyChanged := (u.docChanged || u.selectionSet) && !(nextKey == ps.cursorMarkerKey)
  let key2 := if keyChanged then nextKey else ps.cursorMarkerKey
  let needs4 := needs3 || keyChanged
  let needs5 := needs4 || u.hasRefreshEffect
  (⟨style1, key2, cache2⟩, needs5, u.hasRefreshEffect)

/-- A piece of the DOM fragment built by replaceTokensInTextNode
(metadata-renderer.ts lines 84-111): plain text, or a rendered value
span. -/
inductive Fragment where
  | text (s : String) : Fragment
  | widget (value : String) : Fragment
deriving DecidableEq

/-- JS String.prototype.slice on char lists (both ends clamped). -/
def sliceStr (cs : List Char) (a b : Nat) : String :=
  String.mk ((cs.take b).drop a)

/-- The match loop of replaceTokensInTextNode (metadata-renderer.ts lines
87-111): each match contributes the preceding text, then either the raw
match text (absent key) or a rendered widget (resolved key); the tail text
follows.  Returns the fragment list and the didReplace flag. -/
def replaceTokensGo (cs : List Char) (resolve : String → Option String) :
    List RawMatch → Nat → List Fragment × Bool
  | [], lastIndex =>
    let after := sliceStr cs lastIndex cs.length
    (if after ≠ "" then [Fragment.text after] else [], false)
  | m :: rest, lastIndex =>
    let before := sliceStr cs lastIndex m.mstart
    let key := String.mk (jsTrim m.rawKey.data)
    let raw := sliceStr cs m.mstart m.mstop
    let piece := match resolve key with
      | none => (Fragment.text raw, false)
      | some v => (Fragment.widget v, true)
    let r := replaceTokensGo cs resolve rest m.mstop
    ((if before ≠ "" then [Fragment.text before] else []) ++ piece.1 :: r.1,
      piece.2 || r.2)

/-- replaceTokensInTextNode (metadata-renderer.ts lines 67-116): a node
without the opener is left alone; otherwise the fragment replaces the node
only when at least one token actually resolved (didReplace) — none means
the original text node stands byte-for-byte. -/
def replaceTokensInTextNode (style : SyntaxStyle) (resolve : String → Option String)
    (text : String) : Option (List Fragment) :=
  if !strIncludes text (getSyntaxOpen style) then none
  else
    let r := replaceTokensGo text.data resolve (scanRawMatches style text) 0
    if r.2 then some r.1 else none

/-! ### Helper lemmas -/

theorem formatFrontmatterList_eq_map (items : List FmValue) :
    formatFrontmatterList items = items.map formatFrontmatterValue := by
  induction items with
  | nil => rfl
  | cons v vs ih => simp [formatFrontmatterList, ih]

theorem lookup_mem {α β : Type} [BEq α] [LawfulBEq α] {fields : List (α × β)} {k : α} {v : β}
    (h : fields.lookup k = some v) : (k, v) ∈ fields := by
  induction fields with
  | nil => simp [List.lookup] at h
  | cons f fs ih =>
    rw [List.lookup] at h
    cases hk : (k == f.1) with
    | true =>
      rw [hk] at h
      simp only [Option.some.injEq] at h
      have hk2 : k = f.1 := eq_of_beq hk
      have hf : (k, v) = f := by
        cases f
        simp_all
      rw [hf]
      exact List.mem_cons_self _ _
    | false =>
      rw [hk] at h
      exact List.mem_cons_of_mem _ (ih h)

/-! ### Claim C1 -/

/-- Claim C1: dotted-path resolution splits the key path on dots, trims and
drops empty segments, then walks the mapping segment by segment; an exact
key matches, a case-folded key matches only in case-insensitive mode, and a
sequence or scalar node (or no matching key) makes the result absent; with
the five concrete examples of the specification. -/
theorem C1_dotted_path_resolution :
    (∀ fm keyPath ci useKeyMap,
        resolveFrontmatterValue fm keyPath ci useKeyMap =
          resolveValueGo ci useKeyMap (FmValue.vObj fm)
            ((((splitOnChar '.' keyPath.data).map (fun part => String.mk (jsTrim part))).filter
              (fun part => part ≠ ""))))
    ∧ (∀ ci useKeyMap cur, resolveValueGo ci useKeyMap cur [] = some cur)
    ∧ (∀ ci useKeyMap part rest items,
        resolveValueGo ci useKeyMap (FmValue.vArr items) (part :: rest) = none)
    ∧ (∀ ci useKeyMap part rest s,
        resolveValueGo ci useKeyMap (FmValue.vStr s) (part :: rest) = none)
    ∧ (∀ ci useKeyMap part rest,
        resolveValueGo ci useKeyMap FmValue.vNull (part :: rest) = none)
    ∧ (∀ ci useKeyMap fields part rest v, fields.lookup part = some v →
        resolveValueGo ci useKeyMap (FmValue.vObj fields) (part :: rest) =
          resolveValueGo ci useKeyMap v rest)
    ∧ (∀ useKeyMap fields part rest, fields.lookup part = none →
        resolveValueGo false useKeyMap (FmValue.vObj fields) (part :: rest) = none)
    ∧ (∀ useKeyMap fields part rest, fields.lookup part = none →
        getCaseInsensitiveKey useKeyMap fields part = none →
        resolveValueGo true useKeyMap (FmValue.vObj fields) (part :: rest) = none)
    ∧ (∀ useKeyMap fields part, getCaseInsensitiveKey useKeyMap fields part = none ↔
        ∀ k ∈ fields.map Prod.fst, jsToLower k ≠ jsToLower part)
    ∧ resolveFrontmatterValue [("a", FmValue.vObj [("b", FmValue.vStr "x")])] "a.b" false false =
        some (FmValue.vStr "x")
    ∧ resolveFrontmatterValue [("a", FmValue.vObj [("b", FmValue.vStr "x")])] "a.c" false false =
        none
    ∧ resolveFrontmatterValue [("a", FmValue.vStr "scalar")] "a.b" false false = none
    ∧ (∀ useKeyMap, resolveFrontmatterValue [("Title", FmValue.vStr "T")] "title" true useKeyMap =
        some (FmValue.vStr "T"))
    ∧ (∀ useKeyMap, resolveFrontmatterValue [("Title", FmValue.vStr "T")] "title" false useKeyMap =
        none) := by
  refine ⟨fun fm keyPath ci useKeyMap => rfl,
    fun ci useKeyMap cur => rfl,
    fun ci useKeyMap part rest items => rfl,
    fun ci useKeyMap part rest s => rfl,
    fun ci useKeyMap part rest => rfl,
    ?_, ?_, ?_, ?_, by rfl, by rfl, by rfl, ?_, ?_⟩
  · intro ci useKeyMap fields part rest v h
    simp [resolveValueGo, h]
  · intro useKeyMap fields part rest h
    simp [resolveValueGo, h]
  · intro useKeyMap fields part rest h hk
    simp [resolveValueGo, h, hk]
  · intro useKeyMap fields part
    unfold getCaseInsensitiveKey mapCaseKey findCaseKey
    by_cases hu : useKeyMap
    · simp [hu, List.find?_eq_none]
    · simp [hu, List.find?_eq_none]
  · intro useKeyMap
    cases useKeyMap <;> rfl
  · intro useKeyMap
    cases useKeyMap <;> rfl

/-- Witness for C1 at a concrete input: the exact-key descent clause applied
to the mapping with field a. -/
theorem C1_witness :
    resolveValueGo false false (FmValue.vObj [("a", FmValue.vStr "x")]) ["a", "b"] =
      resolveValueGo false false (FmValue.vStr "x") ["b"] :=
  C1_dotted_path_resolution.2.2.2.2.2.1 false false [("a", FmValue.vStr "x")] "a" ["b"]
    (FmValue.vStr "x") rfl

/-! ### Claim C2 -/

/-- Claim C2: a resolved null yields the empty string; a sequence yields the
comma-joined formatted elements with empty elements dropped (so an empty
sequence yields the empty string, a present-but-empty outcome distinct from
absent none); a nested mapping yields compact JSON; other scalars their
string form. -/
theorem C2_format_resolved_values :
    (∀ fm keyPath ci useKeyMap,
        resolveFrontmatterValue fm keyPath ci useKeyMap = some FmValue.vNull →
        resolveFrontmatterString fm keyPath ci useKeyMap = some "")
    ∧ (∀ items, formatFrontmatterValue (FmValue.vArr items) =
        String.intercalate ", " ((items.map formatFrontmatterValue).filter (fun s => s ≠ "")))
    ∧ formatFrontmatterValue (FmValue.vArr []) = ""
    ∧ (∀ fm keyPath ci useKeyMap,
        resolveFrontmatterValue fm keyPath ci useKeyMap = some (FmValue.vArr []) →
        resolveFrontmatterString fm keyPath ci useKeyMap = some "")
    ∧ (∀ fields, formatFrontmatterValue (FmValue.vObj fields) =
        jsonStringify (FmValue.vObj fields))
    ∧ (∀ s, formatFrontmatterValue (FmValue.vStr s) = s)
    ∧ (∀ n, formatFrontmatterValue (FmValue.vInt n) = toString n)
    ∧ (∀ b, formatFrontmatterValue (FmValue.vBool b) = if b then "true" else "false")
    ∧ (∀ fm keyPath ci useKeyMap v,
        resolveFrontmatterValue fm keyPath ci useKeyMap = some v → v ≠ FmValue.vNull →
        resolveFrontmatterString fm keyPath ci useKeyMap = some (formatFrontmatterValue v)) := by
  refine ⟨?_, ?_, by rfl, ?_, fun fields => rfl, fun s => rfl, fun n => rfl, fun b => rfl, ?_⟩
  · intro fm keyPath ci useKeyMap h
    simp [resolveFrontmatterString, h]
  · intro items
    rw [formatFrontmatterValue, formatFrontmatterList_eq_map]
  · intro fm keyPath ci useKeyMap h
    simp only [resolveFrontmatterString, h]
    rfl
  · intro fm keyPath ci useKeyMap v h hv
    rw [resolveFrontmatterString, h]
    cases v <;> simp_all

/-- Witness for C2 at a concrete input: resolving the empty tags sequence
gives the present-but-empty string, and a null value gives the empty
string. -/
theorem C2_witness :
    resolveFrontmatterString [("tags", FmValue.vArr [])] "tags" false false = some ""
    ∧ resolveFrontmatterString [("a", FmValue.vNull)] "a" false false = some "" :=
  ⟨C2_format_resolved_values.2.2.2.1 [("tags", FmValue.vArr [])] "tags" false false rfl,
   C2_format_resolved_values.1 [("a", FmValue.vNull)] "a" false false rfl⟩

/-! ### Claim C9 -/

/-- Claim C9: a key path all of whose segments trim to empty resolves to
the whole mapping (the walk runs over an empty segment list), and its
resolved string is the formatted rendering of the entire mapping (its
compact JSON dump); a marker like the bracket-dot marker is therefore
substituted with the JSON rendering of the whole frontmatter in both
rendering modes rather than left as literal text. -/
theorem C9_empty_segments_resolve_whole_mapping :
    (∀ fm keyPath ci useKeyMap,
        (∀ part ∈ splitOnChar '.' keyPath.data, jsTrim part = []) →
        resolveFrontmatterValue fm keyPath ci useKeyMap = some (FmValue.vObj fm)
        ∧ resolveFrontmatterString fm keyPath ci useKeyMap =
            some (jsonStringify (FmValue.vObj fm)))
    ∧ splitParts "." = []
    ∧ splitParts ".." = []
    ∧ splitParts " . " = []
    ∧ replaceTokensInTextNode SyntaxStyle.brackets
        (fun k => resolveFrontmatterString [("a", FmValue.vStr "x")] k false false) "[%.]" =
        some [Fragment.widget "\x7b\"a\":\"x\"\x7d"]
    ∧ ((buildDecorations ⟨SyntaxStyle.brackets, false, false⟩ (fun _ => "") true
          (some ⟨"n.md", "n", "n.md", none, 0, 0, "md"⟩)
          (some [("a", FmValue.vStr "x")]) ["[%.]"] [] [(0, 4)] false []).1.map
        (fun d => (d.start, d.stop, d.value))) = [(0, 4, "\x7b\"a\":\"x\"\x7d")] := by
  refine ⟨?_, by rfl, by rfl, by rfl, by rfl, by rfl⟩
  intro fm keyPath ci useKeyMap h
  have hsplit : splitParts keyPath = [] := by
    rw [splitParts]
    rw [List.filter_eq_nil_iff]
    intro a ha
    simp only [List.mem_map] at ha
    obtain ⟨part, hp, rfl⟩ := ha
    simp [h part hp]
  have h1 : resolveFrontmatterValue fm keyPath ci useKeyMap = some (FmValue.vObj fm) := by
    rw [resolveFrontmatterValue, hsplit]
    rfl
  refine ⟨h1, ?_⟩
  rw [resolveFrontmatterString, h1]
  rfl

/-- Witness for C9 at the concrete dot key path over the mapping with field
a. -/
theorem C9_witness :
    resolveFrontmatterValue [("a", FmValue.vStr "x")] "." false false =
      some (FmValue.vObj [("a", FmValue.vStr "x")])
    ∧ resolveFrontmatterString [("a", FmValue.vStr "x")] "." false false =
      some (jsonStringify (FmValue.vObj [("a", FmValue.vStr "x")])) :=
  C9_empty_segments_resolve_whole_mapping.1 [("a", FmValue.vStr "x")] "." false false
    (by decide)

/-! ### Claim C7 -/

/-- Pairwise distinctness of the case-folded keys of one mapping node. -/
def pairwiseLoweredDistinct : List String → Bool
  | [] => true
  | k :: ks =>
    ks.all (fun k2 => decide (jsToLower k2 ≠ jsToLower k)) && pairwiseLoweredDistinct ks

mutual

/-- No node of the value has two keys that agree under case folding. -/
def noCaseCollisions : FmValue → Bool
  | FmValue.vObj fields =>
    pairwiseLoweredDistinct (fields.map Prod.fst) && noCaseCollisionsFields fields
  | FmValue.vArr items => noCaseCollisionsItems items
  | _ => true

def noCaseCollisionsFields : List (String × FmValue) → Bool
  | [] => true
  | (_, v) :: fs => noCaseCollisions v && noCaseCollisionsFields fs

def noCaseCollisionsItems : List FmValue → Bool
  | [] => true
  | v :: vs => noCaseCollisions v && noCaseCollisionsItems vs

end

theorem find?_reverse_of_unique {α : Type} (p : α → Bool) (l : List α)
    (h : l.Pairwise (fun a b => ¬(p a = true ∧ p b = true))) :
    l.reverse.find? p = l.find? p := by
  induction l with
  | nil => rfl
  | cons x xs ih =>
    rw [List.pairwise_cons] at h
    rw [List.reverse_cons]
    cases px : p x with
    | true =>
      have hnone : xs.find? p = none := by
        rw [List.find?_eq_none]
        intro b hb hpb
        exact h.1 b hb ⟨px, hpb⟩
      have hnoner : xs.reverse.find? p = none := by
        rw [List.find?_eq_none]
        intro b hb hpb
        exact h.1 b (List.mem_reverse.mp hb) ⟨px, hpb⟩
      rw [List.find?_append, hnoner, List.find?_cons, px, List.find?_cons, px]
      rfl
    | false =>
      rw [List.find?_append, ih h.2, List.find?_cons, px, List.find?_cons, px]
      cases xs.find? p <;> rfl

theorem pairwiseLoweredDistinct_pairwise {l : List String}
    (h : pairwiseLoweredDistinct l = true) :
    l.Pairwise (fun a b => jsToLower a ≠ jsToLower b) := by
  induction l with
  | nil => exact List.Pairwise.nil
  | cons x xs ih =>
    rw [pairwiseLoweredDistinct, Bool.and_eq_true] at h
    rw [List.pairwise_cons]
    refine ⟨?_, ih h.2⟩
    intro b hb
    have := List.all_eq_true.mp h.1 b hb
    intro hcontra
    simp at this
    exact this hcontra.symm

theorem mapCaseKey_eq_findCaseKey (fields : List (String × FmValue)) (part : String)
    (h : pairwiseLoweredDistinct (fields.map Prod.fst) = true) :
    mapCaseKey fields part = findCaseKey fields part := by
  rw [mapCaseKey, findCaseKey]
  apply find?_reverse_of_unique
  have hp := pairwiseLoweredDistinct_pairwise h
  refine hp.imp ?_
  intro a b hab hcontra
  simp only [decide_eq_true_eq] at hcontra
  exact hab (hcontra.1.trans hcontra.2.symm)

theorem noCaseCollisionsFields_value {fields : List (String × FmValue)} {k : String}
    {v : FmValue} (h : noCaseCollisionsFields fields = true) (hm : (k, v) ∈ fields) :
    noCaseCollisions v = true := by
  induction fields with
  | nil => cases hm
  | cons f fs ih =>
    cases f with
    | mk k2 v2 =>
      rw [noCaseCollisionsFields, Bool.and_eq_true] at h
      rcases List.mem_cons.mp hm with heq | hmem
      · cases heq
        exact h.1
      · exact ih h.2 hmem

theorem resolveValueGo_keymap_eq (ci : Bool) (parts : List String) :
    ∀ v, noCaseCollisions v = true →
      resolveValueGo ci true v parts = resolveValueGo ci false v parts := by
  induction parts with
  | nil => intro v _; rfl
  | cons part rest ih =>
    intro v hv
    cases v with
    | vObj fields =>
      rw [noCaseCollisions, Bool.and_eq_true] at hv
      have hci : getCaseInsensitiveKey true fields part = getCaseInsensitiveKey false fields part := by
        rw [getCaseInsensitiveKey, getCaseInsensitiveKey, if_pos rfl, if_neg (by simp)]
        exact mapCaseKey_eq_findCaseKey fields part hv.1
      cases hl : fields.lookup part with
      | some w =>
        have hw := noCaseCollisionsFields_value hv.2 (lookup_mem hl)
        simp only [resolveValueGo, hl]
        exact ih w hw
      | none =>
        cases ci with
        | false => simp [resolveValueGo, hl]
        | true =>
          simp only [resolveValueGo, hl, hci]
          cases hk : getCaseInsensitiveKey false fields part with
          | none => simp
          | some k =>
            simp only []
            cases hl2 : fields.lookup k with
            | none => simp [hl2]
            | some w =>
              simp only [hl2]
              exact ih w (noCaseCollisionsFields_value hv.2 (lookup_mem hl2))
    | vNull => rfl
    | vBool b => rfl
    | vInt n => rfl
    | vStr s => rfl
    | vArr items => rfl

theorem freshResolve_eq_spec (cfg : ResolverConfig) (keyPath : String)
    (h : noCaseCollisions (FmValue.vObj cfg.frontmatter) = true) :
    freshResolve cfg keyPath = specNonMemoizedResolve cfg keyPath := by
  have hstr : resolveFrontmatterString cfg.frontmatter keyPath cfg.caseInsensitive
      cfg.caseInsensitive =
      resolveFrontmatterString cfg.frontmatter keyPath cfg.caseInsensitive false := by
    cases hci : cfg.caseInsensitive with
    | false => rfl
    | true =>
      rw [resolveFrontmatterString, resolveFrontmatterString, resolveFrontmatterValue,
        resolveFrontmatterValue, resolveValueGo_keymap_eq _ _ _ h]
  rw [freshResolve, specNonMemoizedResolve, hstr]

theorem resolverStep_sound (cfg : ResolverConfig) (cache : List (String × Option String))
    (keyPath : String) (hinv : ∀ p ∈ cache, p.2 = freshResolve cfg p.1) :
    (resolverStep cfg cache keyPath).1 = freshResolve cfg keyPath
    ∧ ∀ p ∈ (resolverStep cfg cache keyPath).2, p.2 = freshResolve cfg p.1 := by
  rw [resolverStep]
  cases hl : cache.lookup keyPath with
  | some v =>
    have := hinv (keyPath, v) (lookup_mem hl)
    exact ⟨this.symm ▸ rfl, hinv⟩
  | none =>
    refine ⟨rfl, ?_⟩
    intro p hp
    rcases List.mem_cons.mp hp with heq | hmem
    · rw [heq]
    · exact hinv p hmem

/-- Counterexample to claim C7 as stated: with case-insensitive matching
and two keys whose lowercasings collide, the memoized resolver (which
always supplies the per-node key map, where the last colliding key wins)
returns the value of the later key, while a fresh non-memoized resolution
(first-match scan) returns the value of the earlier key. -/
theorem C7_counterexample :
    (resolverStep ⟨[("TITLE", FmValue.vStr "x"), ("TiTLE", FmValue.vStr "y")], true, none,
        false, fun _ => ""⟩ [] "title").1 = some "y"
    ∧ specNonMemoizedResolve ⟨[("TITLE", FmValue.vStr "x"), ("TiTLE", FmValue.vStr "y")], true,
        none, false, fun _ => ""⟩ "title" = some "x"
    ∧ (resolverStep ⟨[("TITLE", FmValue.vStr "x"), ("TiTLE", FmValue.vStr "y")], true, none,
        false, fun _ => ""⟩ [] "title").1 ≠ specNonMemoizedResolve
        ⟨[("TITLE", FmValue.vStr "x"), ("TiTLE", FmValue.vStr "y")], true, none, false,
          fun _ => ""⟩ "title" := by
  refine ⟨rfl, rfl, ?_⟩
  intro h
  rw [show (resolverStep ⟨[("TITLE", FmValue.vStr "x"), ("TiTLE", FmValue.vStr "y")], true,
      none, false, fun _ => ""⟩ [] "title").1 = some "y" from rfl] at h
  rw [show specNonMemoizedResolve ⟨[("TITLE", FmValue.vStr "x"), ("TiTLE", FmValue.vStr "y")],
      true, none, false, fun _ => ""⟩ "title" = some "x" from rfl] at h
  exact absurd h (by decide)

/-- Claim C7 (amended): within one render pass the memoizing resolver is
consistent — under the cache invariant (every stored outcome is the fresh
outcome) a call returns exactly the fresh resolution with the closure's
key-map semantics, the invariant is preserved, and an immediately repeated
call returns the same result; and when no two keys of any mapping node
collide under case folding, that result also equals the fully non-memoized
resolution (mapping resolution without a key-map cache followed by built-in
fallback). -/
theorem C7_memoized_resolver_consistent (cfg : ResolverConfig)
    (cache : List (String × Option String)) (keyPath : String)
    (hinv : ∀ p ∈ cache, p.2 = freshResolve cfg p.1) :
    (resolverStep cfg cache keyPath).1 = freshResolve cfg keyPath
    ∧ (∀ p ∈ (resolverStep cfg cache keyPath).2, p.2 = freshResolve cfg p.1)
    ∧ (resolverStep cfg (resolverStep cfg cache keyPath).2 keyPath).1 =
        (resolverStep cfg cache keyPath).1
    ∧ (noCaseCollisions (FmValue.vObj cfg.frontmatter) = true →
        (resolverStep cfg cache keyPath).1 = specNonMemoizedResolve cfg keyPath) := by
  obtain ⟨h1, h2⟩ := resolverStep_sound cfg cache keyPath hinv
  obtain ⟨h3, _⟩ := resolverStep_sound cfg (resolverStep cfg cache keyPath).2 keyPath h2
  exact ⟨h1, h2, h3.trans h1.symm, fun hnc => h1.trans (freshResolve_eq_spec cfg keyPath hnc)⟩

/-- Witness for C7 (amended) at a concrete collision-free configuration and
the empty per-render cache. -/
theorem C7_witness :
    (resolverStep ⟨[("Title", FmValue.vStr "T")], true, none, false, fun _ => ""⟩ [] "title").1 =
      freshResolve ⟨[("Title", FmValue.vStr "T")], true, none, false, fun _ => ""⟩ "title"
    ∧ (∀ p ∈ (resolverStep ⟨[("Title", FmValue.vStr "T")], true, none, false, fun _ => ""⟩ []
        "title").2, p.2 = freshResolve ⟨[("Title", FmValue.vStr "T")], true, none, false,
        fun _ => ""⟩ p.1)
    ∧ (resolverStep ⟨[("Title", FmValue.vStr "T")], true, none, false, fun _ => ""⟩
        (resolverStep ⟨[("Title", FmValue.vStr "T")], true, none, false, fun _ => ""⟩ []
          "title").2 "title").1 =
        (resolverStep ⟨[("Title", FmValue.vStr "T")], true, none, false, fun _ => ""⟩ []
          "title").1
    ∧ (noCaseCollisions (FmValue.vObj [("Title", FmValue.vStr "T")]) = true →
        (resolverStep ⟨[("Title", FmValue.vStr "T")], true, none, false, fun _ => ""⟩ []
          "title").1 =
          specNonMemoizedResolve ⟨[("Title", FmValue.vStr "T")], true, none, false,
            fun _ => ""⟩ "title") :=
  C7_memoized_resolver_consistent ⟨[("Title", FmValue.vStr "T")], true, none, false,
    fun _ => ""⟩ [] "title" (fun p hp => absurd hp (List.not_mem_nil p))

/-! ### Decoration-pass invariants -/

/-- Every cache entry stores the marker list computed from its stored text
with the current syntax (the transparency invariant of the line cache). -/
def LineCacheInv (style : SyntaxStyle) (cache : List (Nat × LineMarkers)) : Prop :=
  ∀ e ∈ cache, e.2.markers = computeLineMarkers style e.2.text

/-- Every value-cache entry stores the fresh resolution outcome of its
key. -/
def ValueCacheInv (cfg : ResolverConfig) (vc : List (String × Option String)) : Prop :=
  ∀ p ∈ vc, p.2 = freshResolve cfg p.1

theorem mem_lineCacheSet {cache : List (Nat × LineMarkers)} {n : Nat} {e : LineMarkers}
    {p : Nat × LineMarkers} (h : p ∈ lineCacheSet cache n e) : p = (n, e) ∨ p ∈ cache := by
  induction cache with
  | nil =>
    rw [lineCacheSet] at h
    rcases List.mem_singleton.mp h with rfl
    exact Or.inl rfl
  | cons f fs ih =>
    rw [lineCacheSet] at h
    by_cases hf : f.1 = n
    · rw [if_pos hf] at h
      rcases List.mem_cons.mp h with rfl | hmem
      · exact Or.inl rfl
      · exact Or.inr (List.mem_cons_of_mem _ hmem)
    · rw [if_neg hf] at h
      rcases List.mem_cons.mp h with rfl | hmem
      · exact Or.inr (List.mem_cons_self _ _)
      · rcases ih hmem with h1 | h2
        · exact Or.inl h1
        · exact Or.inr (List.mem_cons_of_mem _ h2)

theorem getLineMarkers_inv (style : SyntaxStyle) (n : Nat) (text : String)
    (cache : List (Nat × LineMarkers)) (h : LineCacheInv style cache) :
    (getLineMarkers style n text cache).1 = computeLineMarkers style text
    ∧ LineCacheInv style (getLineMarkers style n text cache).2 := by
  have hset : LineCacheInv style (lineCacheSet cache n ⟨text, computeLineMarkers style text⟩) := by
    intro p hp
    rcases mem_lineCacheSet hp with rfl | hmem
    · rfl
    · exact h p hmem
  cases hl : cache.lookup n with
  | some e =>
    by_cases ht : e.text = text
    · simp only [getLineMarkers, hl, if_pos ht]
      exact ⟨by rw [h (n, e) (lookup_mem hl), ht], h⟩
    · simp only [getLineMarkers, hl, if_neg ht]
      exact ⟨by simp, hset⟩
  | none =>
    simp only [getLineMarkers, hl]
    exact ⟨by simp, hset⟩

theorem lineAtPos_pos (doc : List String) (pos : Nat) : 1 ≤ lineAtPos doc pos := by
  induction doc generalizing pos with
  | nil => rw [lineAtPos]
  | cons t rest ih =>
    cases rest with
    | nil => rw [lineAtPos]
    | cons u us =>
      have hunf : lineAtPos (t :: u :: us) pos =
          if pos ≤ t.data.length then 1
          else 1 + lineAtPos (u :: us) (pos - t.data.length - 1) := rfl
      rw [hunf]
      by_cases hp : pos ≤ t.data.length
      · rw [if_pos hp]
      · rw [if_neg hp]
        omega

theorem fenceCapture_empty : fenceCapture "" = none := rfl

theorem fence_replay_step (doc : List String) (n : Nat) (hn : 1 ≤ n) :
    getFenceStateBeforeLine doc (n + 1) =
      (updateFenceStateForLine (lineTextAt doc n) (getFenceStateBeforeLine doc n)).2 := by
  have h1 : n + 1 - 1 = (n - 1) + 1 := by omega
  rw [getFenceStateBeforeLine, h1, List.take_succ, List.foldl_append,
    ← List.get?_eq_getElem?]
  rw [getFenceStateBeforeLine]
  cases hg : doc.get? (n - 1) with
  | some t =>
    have ht : lineTextAt doc n = t := by
      rw [lineTextAt, List.getD, hg]
      rfl
    rw [ht]
    rfl
  | none =>
    have ht : lineTextAt doc n = "" := by
      rw [lineTextAt, List.getD, hg]
      rfl
    rw [ht]
    rfl

theorem processMarkers_sound (cfg : ResolverConfig) (sel : List (Nat × Nat)) (ln lf : Nat)
    (lif ifl : Bool) (code : List InlineCodeRange) (er : List EmphasisRange)
    (sr hr : List DelimitedRange) :
    ∀ (markers : List LineMarker) (vc : List (String × Option String)),
      ValueCacheInv cfg vc →
      (∀ d ∈ (processMarkers cfg sel ln lf lif ifl code er sr hr markers vc).1,
        lif = false ∧ ifl = false ∧ d.line = ln ∧ d.marker ∈ markers
        ∧ isMarkerInInlineCode d.marker code = false
        ∧ d.start = lf + d.marker.mfrom ∧ d.stop = lf + d.marker.mto
        ∧ sel.any (fun s =>
            decide (s.1 = s.2) && decide (d.start ≤ s.1) && decide (s.2 ≤ d.stop)) = false
        ∧ freshResolve cfg d.marker.key = some d.value
        ∧ d.markdownStyle = getMarkdownStyleForMarker d.marker er sr hr)
      ∧ ValueCacheInv cfg (processMarkers cfg sel ln lf lif ifl code er sr hr markers vc).2 := by
  intro markers
  induction markers with
  | nil =>
    intro vc hvc
    exact ⟨fun d hd => absurd hd (List.not_mem_nil d), hvc⟩
  | cons marker rest ih =>
    intro vc hvc
    by_cases h1 : (lif = true ∨ ifl = true ∨ isMarkerInInlineCode marker code = true)
    · have hskip : processMarkers cfg sel ln lf lif ifl code er sr hr (marker :: rest) vc =
          processMarkers cfg sel ln lf lif ifl code er sr hr rest vc := by
        simp only [processMarkers, if_pos h1]
      rw [hskip]
      obtain ⟨hmem, hinv⟩ := ih vc hvc
      refine ⟨?_, hinv⟩
      intro d hd
      obtain ⟨a, b, c, dm, rest3⟩ := hmem d hd
      exact ⟨a, b, c, List.mem_cons_of_mem _ dm, rest3⟩
    · simp only [not_or, Bool.not_eq_true] at h1
      obtain ⟨hlif, hifl, hcode⟩ := h1
      by_cases h2 : (sel.any (fun s =>
          decide (s.1 = s.2) && decide (lf + marker.mfrom ≤ s.1) &&
            decide (s.2 ≤ lf + marker.mto)) = true)
      · have hskip : processMarkers cfg sel ln lf lif ifl code er sr hr (marker :: rest) vc =
            processMarkers cfg sel ln lf lif ifl code er sr hr rest vc := by
          simp only [processMarkers, hlif, hifl, hcode]
          simp [h2]
        rw [hskip]
        obtain ⟨hmem, hinv⟩ := ih vc hvc
        refine ⟨?_, hinv⟩
        intro d hd
        obtain ⟨a, b, c, dm, rest3⟩ := hmem d hd
        exact ⟨a, b, c, List.mem_cons_of_mem _ dm, rest3⟩
      · have hsel := Bool.not_eq_true _ ▸ h2
        cases hres : resolverStep cfg vc marker.key with
        | mk val vc2 =>
          have hv2inv : ValueCacheInv cfg vc2 := by
            have := (resolverStep_sound cfg vc marker.key hvc).2
            rw [hres] at this
            exact this
          have hfresh : freshResolve cfg marker.key = val := by
            have := (resolverStep_sound cfg vc marker.key hvc).1
            rw [hres] at this
            exact this.symm
          cases val with
          | none =>
            have hskip : processMarkers cfg sel ln lf lif ifl code er sr hr
                (marker :: rest) vc =
                processMarkers cfg sel ln lf lif ifl code er sr hr rest vc2 := by
              simp only [processMarkers, hlif, hifl, hcode]
              simp only [Bool.false_eq_true, or_self, if_false]
              rw [if_neg (by simp [h2] : ¬_), hres]
            rw [hskip]
            obtain ⟨hmem, hinv⟩ := ih vc2 hv2inv
            refine ⟨?_, hinv⟩
            intro d hd
            obtain ⟨a, b, c, dm, rest3⟩ := hmem d hd
            exact ⟨a, b, c, List.mem_cons_of_mem _ dm, rest3⟩
          | some value =>
            have hemit : processMarkers cfg sel ln lf lif ifl code er sr hr
                (marker :: rest) vc =
                (⟨lf + marker.mfrom, lf + marker.mto, value,
                    getMarkdownStyleForMarker marker er sr hr, ln, marker⟩ ::
                  (processMarkers cfg sel ln lf lif ifl code er sr hr rest vc2).1,
                 (processMarkers cfg sel ln lf lif ifl code er sr hr rest vc2).2) := by
              simp only [processMarkers, hlif, hifl, hcode]
              simp only [Bool.false_eq_true, or_self, if_false]
              rw [if_neg (by simp [h2] : ¬_), hres]
            rw [hemit]
            obtain ⟨hmem, hinv⟩ := ih vc2 hv2inv
            refine ⟨?_, hinv⟩
            intro d hd
            rcases List.mem_cons.mp hd with rfl | hdm
            · exact ⟨hlif, hifl, rfl, List.mem_cons_self _ _, hcode, rfl, rfl,
                (by simpa using h2), hfresh ▸ rfl, rfl⟩
            · obtain ⟨a, b, c, dm, rest3⟩ := hmem d hdm
              exact ⟨a, b, c, List.mem_cons_of_mem _ dm, rest3⟩

/-- Everything buildDecorations guarantees about one emitted decoration:
its line is outside any fence and is not a fence delimiter line, its marker
is a marker of the (freshly scanned) line and does not overlap inline code,
its span is the absolute marker span and holds no zero-width caret, its
value is the fresh resolution of its key, and its style comes from the
emphasis/strike/highlight ranges of the marker-masked line text. -/
def DecValid (settings : SettingsModel) (cfg : ResolverConfig) (doc : List String)
    (selection : List (Nat × Nat)) (d : DecorationEntry) : Prop :=
  (updateFenceStateForLine (lineTextAt doc d.line)
      (getFenceStateBeforeLine doc d.line)).1.1 = false
  ∧ (updateFenceStateForLine (lineTextAt doc d.line)
      (getFenceStateBeforeLine doc d.line)).1.2 = false
  ∧ d.marker ∈ computeLineMarkers settings.syntaxStyle (lineTextAt doc d.line)
  ∧ isMarkerInInlineCode d.marker (getInlineCodeRanges (lineTextAt doc d.line)) = false
  ∧ d.start = lineFrom doc d.line + d.marker.mfrom
  ∧ d.stop = lineFrom doc d.line + d.marker.mto
  ∧ selection.any (fun s =>
      decide (s.1 = s.2) && decide (d.start ≤ s.1) && decide (s.2 ≤ d.stop)) = false
  ∧ freshResolve cfg d.marker.key = some d.value
  ∧ d.markdownStyle = getMarkdownStyleForMarker d.marker
      (getEmphasisRanges (maskMarkerText (lineTextAt doc d.line)
          (computeLineMarkers settings.syntaxStyle (lineTextAt doc d.line)))
        (getInlineCodeRanges (lineTextAt doc d.line)))
      (getDelimitedRanges (maskMarkerText (lineTextAt doc d.line)
          (computeLineMarkers settings.syntaxStyle (lineTextAt doc d.line))) "~~"
        (getInlineCodeRanges (lineTextAt doc d.line)))
      (getDelimitedRanges (maskMarkerText (lineTextAt doc d.line)
          (computeLineMarkers settings.syntaxStyle (lineTextAt doc d.line))) "=="
        (getInlineCodeRanges (lineTextAt doc d.line)))

theorem processLine_sound (settings : SettingsModel) (cfg : ResolverConfig) (doc : List String)
    (selection : List (Nat × Nat)) (n : Nat) (fence : FenceState) (st : ScanState)
    (hn : 1 ≤ n) (hfence : fence = getFenceStateBeforeLine doc n)
    (hlc : LineCacheInv settings.syntaxStyle st.lineCache)
    (hvc : ValueCacheInv cfg st.valueCache) :
    (∀ d ∈ (processLine settings cfg doc selection n fence st).1,
        d.line = n ∧ DecValid settings cfg doc selection d)
    ∧ (processLine settings cfg doc selection n fence st).2.1 =
        getFenceStateBeforeLine doc (n + 1)
    ∧ LineCacheInv settings.syntaxStyle
        (processLine settings cfg doc selection n fence st).2.2.lineCache
    ∧ ValueCacheInv cfg (processLine settings cfg doc selection n fence st).2.2.valueCache
    ∧ (processLine settings cfg doc selection n fence st).2.2.seenLines =
        (if st.seenLines.contains n = true then st.seenLines else n :: st.seenLines) := by
  subst hfence
  have hfr : (updateFenceStateForLine (lineTextAt doc n) (getFenceStateBeforeLine doc n)).2 =
      getFenceStateBeforeLine doc (n + 1) := (fence_replay_step doc n hn).symm
  by_cases hseen : st.seenLines.contains n = true
  · have heq : processLine settings cfg doc selection n (getFenceStateBeforeLine doc n) st =
        ([], (updateFenceStateForLine (lineTextAt doc n)
          (getFenceStateBeforeLine doc n)).2, st) := by
      simp only [processLine, hseen, if_true]
    rw [heq]
    exact ⟨fun d hd => absurd hd (List.not_mem_nil d), hfr, hlc, hvc, by rw [if_pos hseen]⟩
  · have hseenf : st.seenLines.contains n = false := by
      revert hseen
      cases st.seenLines.contains n <;> simp
    obtain ⟨hms, hlc2⟩ := getLineMarkers_inv settings.syntaxStyle n
      (lineTextAt doc n) st.lineCache hlc
    by_cases hmk : (getLineMarkers settings.syntaxStyle n (lineTextAt doc n) st.lineCache).1 = []
    · have heq : processLine settings cfg doc selection n (getFenceStateBeforeLine doc n) st =
          ([], (updateFenceStateForLine (lineTextAt doc n)
            (getFenceStateBeforeLine doc n)).2,
           ⟨n :: st.seenLines,
            (getLineMarkers settings.syntaxStyle n (lineTextAt doc n) st.lineCache).2,
            st.valueCache⟩) := by
        simp only [processLine, hseenf, Bool.false_eq_true, if_false, hmk, if_true]
      rw [heq]
      exact ⟨fun d hd => absurd hd (List.not_mem_nil d), hfr, hlc2, hvc,
        by rw [if_neg hseen]⟩
    · have heq : processLine settings cfg doc selection n (getFenceStateBeforeLine doc n) st =
          ((processMarkers cfg selection n (lineFrom doc n)
              (updateFenceStateForLine (lineTextAt doc n)
                (getFenceStateBeforeLine doc n)).1.1
              (updateFenceStateForLine (lineTextAt doc n)
                (getFenceStateBeforeLine doc n)).1.2
              (if (updateFenceStateForLine (lineTextAt doc n)
                    (getFenceStateBeforeLine doc n)).1.1 ∨
                  (updateFenceStateForLine (lineTextAt doc n)
                    (getFenceStateBeforeLine doc n)).1.2 then []
                else getInlineCodeRanges (lineTextAt doc n))
              (if (updateFenceStateForLine (lineTextAt doc n)
                    (getFenceStateBeforeLine doc n)).1.1 ∨
                  (updateFenceStateForLine (lineTextAt doc n)
                    (getFenceStateBeforeLine doc n)).1.2 then []
                else getEmphasisRanges
                  (maskMarkerText (lineTextAt doc n)
                    (getLineMarkers settings.syntaxStyle n (lineTextAt doc n) st.lineCache).1)
                  (if (updateFenceStateForLine (lineTextAt doc n)
                        (getFenceStateBeforeLine doc n)).1.1 ∨
                      (updateFenceStateForLine (lineTextAt doc n)
                        (getFenceStateBeforeLine doc n)).1.2 then []
                    else getInlineCodeRanges (lineTextAt doc n)))
              (if (updateFenceStateForLine (lineTextAt doc n)
                    (getFenceStateBeforeLine doc n)).1.1 ∨
                  (updateFenceStateForLine (lineTextAt doc n)
                    (getFenceStateBeforeLine doc n)).1.2 then []
                else getDelimitedRanges
                  (maskMarkerText (lineTextAt doc n)
                    (getLineMarkers settings.syntaxStyle n (lineTextAt doc n) st.lineCache).1)
                  "~~"
                  (if (updateFenceStateForLine (lineTextAt doc n)
                        (getFenceStateBeforeLine doc n)).1.1 ∨
                      (updateFenceStateForLine (lineTextAt doc n)
                        (getFenceStateBeforeLine doc n)).1.2 then []
                    else getInlineCodeRanges (lineTextAt doc n)))
              (if (updateFenceStateForLine (lineTextAt doc n)
                    (getFenceStateBeforeLine doc n)).1.1 ∨
                  (updateFenceStateForLine (lineTextAt doc n)
                    (getFenceStateBeforeLine doc n)).1.2 then []
                else getDelimitedRanges
                  (maskMarkerText (lineTextAt doc n)
                    (getLineMarkers settings.syntaxStyle n (lineTextAt doc n) st.lineCache).1)
                  "=="
                  (if (updateFenceStateForLine (lineTextAt doc n)
                        (getFenceStateBeforeLine doc n)).1.1 ∨
                      (updateFenceStateForLine (lineTextAt doc n)
                        (getFenceStateBeforeLine doc n)).1.2 then []
                    else getInlineCodeRanges (lineTextAt doc n)))
              (getLineMarkers settings.syntaxStyle n (lineTextAt doc n) st.lineCache).1
              st.valueCache).1,
           (updateFenceStateForLine (lineTextAt doc n)
             (getFenceStateBeforeLine doc n)).2,
           ⟨n :: st.seenLines,
            (getLineMarkers settings.syntaxStyle n (lineTextAt doc n) st.lineCache).2,
            (processMarkers cfg selection n (lineFrom doc n)
              (updateFenceStateForLine (lineTextAt doc n)
                (getFenceStateBeforeLine doc n)).1.1
              (updateFenceStateForLine (lineTextAt doc n)
                (getFenceStateBeforeLine doc n)).1.2
              (if (updateFenceStateForLine (lineTextAt doc n)
                    (getFenceStateBeforeLine doc n)).1.1 ∨
                  (updateFenceStateForLine (lineTextAt doc n)
                    (getFenceStateBeforeLine doc n)).1.2 then []
                else getInlineCodeRanges (lineTextAt doc n))
              (if (updateFenceStateForLine (lineTextAt doc n)
                    (getFenceStateBeforeLine doc n)).1.1 ∨
                  (updateFenceStateForLine (lineTextAt doc n)
                    (getFenceStateBeforeLine doc n)).1.2 then []
                else getEmphasisRanges
                  (maskMarkerText (lineTextAt doc n)
                    (getLineMarkers settings.syntaxStyle n (lineTextAt doc n) st.lineCache).1)
                  (if (updateFenceStateForLine (lineTextAt doc n)
                        (getFenceStateBeforeLine doc n)).1.1 ∨
                      (updateFenceStateForLine (lineTextAt doc n)
                        (getFenceStateBeforeLine doc n)).1.2 then []
                    else getInlineCodeRanges (lineTextAt doc n)))
              (if (updateFenceStateForLine (lineTextAt doc n)
                    (getFenceStateBeforeLine doc n)).1.1 ∨
                  (updateFenceStateForLine (lineTextAt doc n)
                    (getFenceStateBeforeLine doc n)).1.2 then []
                else getDelimitedRanges
                  (maskMarkerText (lineTextAt doc n)
                    (getLineMarkers settings.syntaxStyle n (lineTextAt doc n) st.lineCache).1)
                  "~~"
                  (if (updateFenceStateForLine (lineTextAt doc n)
                        (getFenceStateBeforeLine doc n)).1.1 ∨
                      (updateFenceStateForLine (lineTextAt doc n)
                        (getFenceStateBeforeLine doc n)).1.2 then []
                    else getInlineCodeRanges (lineTextAt doc n)))
              (if (updateFenceStateForLine (lineTextAt doc n)
                    (getFenceStateBeforeLine doc n)).1.1 ∨
                  (updateFenceStateForLine (lineTextAt doc n)
                    (getFenceStateBeforeLine doc n)).1.2 then []
                else getDelimitedRanges
                  (maskMarkerText (lineTextAt doc n)
                    (getLineMarkers settings.syntaxStyle n (lineTextAt doc n) st.lineCache).1)
                  "=="
                  (if (updateFenceStateForLine (lineTextAt doc n)
                        (getFenceStateBeforeLine doc n)).1.1 ∨
                      (updateFenceStateForLine (lineTextAt doc n)
                        (getFenceStateBeforeLine doc n)).1.2 then []
                    else getInlineCodeRanges (lineTextAt doc n)))
              (getLineMarkers settings.syntaxStyle n (lineTextAt doc n) st.lineCache).1
              st.valueCache).2⟩) := by
        simp only [processLine, hseenf, Bool.false_eq_true, if_false, hmk, if_true]
      rw [heq]
      obtain ⟨hmem, hinvv⟩ := processMarkers_sound cfg selection n (lineFrom doc n) _ _ _ _ _ _
        (getLineMarkers settings.syntaxStyle n (lineTextAt doc n) st.lineCache).1
        st.valueCache hvc
      refine ⟨?_, hfr, hlc2, hinvv, by rw [if_neg hseen]⟩
      intro d hd
      obtain ⟨ha, hb, hline, hdm, hcode, hstart, hstop, hsel, hfresh, hstyle⟩ := hmem d hd
      have hcond : ¬((updateFenceStateForLine (lineTextAt doc n)
          (getFenceStateBeforeLine doc n)).1.1 = true ∨
          (updateFenceStateForLine (lineTextAt doc n)
            (getFenceStateBeforeLine doc n)).1.2 = true) := by
        rw [ha, hb]
        simp
      refine ⟨hline, ?_⟩
      rw [DecValid, hline]
      simp only [if_neg hcond] at hcode hstyle
      rw [hms] at hdm
      rw [hms] at hstyle
      exact ⟨ha, hb, hdm, hcode, hstart, hstop, hsel, hfresh, hstyle⟩

theorem mem_of_contains_true {l : List Nat} {a : Nat} (h : l.contains a = true) : a ∈ l := by
  simpa using h

theorem not_mem_of_contains_false {l : List Nat} {a : Nat} (h : l.contains a = false) :
    a ∉ l := by
  intro hm
  rw [(by simpa using hm : l.contains a = true)] at h
  cases h

theorem processLinesFrom_sound (settings : SettingsModel) (cfg : ResolverConfig)
    (doc : List String) (selection : List (Nat × Nat)) :
    ∀ (count n : Nat) (fence : FenceState) (st : ScanState),
      1 ≤ n → fence = getFenceStateBeforeLine doc n →
      LineCacheInv settings.syntaxStyle st.lineCache → ValueCacheInv cfg st.valueCache →
      (∀ d ∈ (processLinesFrom settings cfg doc selection n count fence st).1,
          DecValid settings cfg doc selection d
          ∧ d.line ∈ (processLinesFrom settings cfg doc selection n count fence st).2.seenLines)
      ∧ LineCacheInv settings.syntaxStyle
          (processLinesFrom settings cfg doc selection n count fence st).2.lineCache
      ∧ ValueCacheInv cfg
          (processLinesFrom settings cfg doc selection n count fence st).2.valueCache
      ∧ st.seenLines ⊆
          (processLinesFrom settings cfg doc selection n count fence st).2.seenLines
      ∧ (st.seenLines.Nodup →
          (processLinesFrom settings cfg doc selection n count fence st).2.seenLines.Nodup) := by
  intro count
  induction count with
  | zero =>
    intro n fence st hn hfence hlc hvc
    exact ⟨fun d hd => absurd hd (List.not_mem_nil d), hlc, hvc,
      fun a ha => ha, fun h => h⟩
  | succ c ih =>
    intro n fence st hn hfence hlc hvc
    obtain ⟨hmem1, hfence1, hlc1, hvc1, hseen1⟩ :=
      processLine_sound settings cfg doc selection n fence st hn hfence hlc hvc
    obtain ⟨hmem2, hlc2, hvc2, hsub2, hnd2⟩ :=
      ih (n + 1) (processLine settings cfg doc selection n fence st).2.1
        (processLine settings cfg doc selection n fence st).2.2 (by omega) hfence1 hlc1 hvc1
    have hstep : processLinesFrom settings cfg doc selection n (c + 1) fence st =
        ((processLine settings cfg doc selection n fence st).1 ++
          (processLinesFrom settings cfg doc selection (n + 1) c
            (processLine settings cfg doc selection n fence st).2.1
            (processLine settings cfg doc selection n fence st).2.2).1,
         (processLinesFrom settings cfg doc selection (n + 1) c
            (processLine settings cfg doc selection n fence st).2.1
            (processLine settings cfg doc selection n fence st).2.2).2) := rfl
    rw [hstep]
    have hsubstep : st.seenLines ⊆
        (processLine settings cfg doc selection n fence st).2.2.seenLines := by
      rw [hseen1]
      by_cases hc : st.seenLines.contains n = true
      · rw [if_pos hc]
        exact fun a ha => ha
      · rw [if_neg hc]
        exact fun a ha => List.mem_cons_of_mem _ ha
    refine ⟨?_, hlc2, hvc2, fun a ha => hsub2 (hsubstep ha), ?_⟩
    · intro d hd
      rcases List.mem_append.mp hd with h1 | h2
      · obtain ⟨hline, hvalid⟩ := hmem1 d h1
        refine ⟨hvalid, ?_⟩
        apply hsub2
        rw [hseen1, hline]
        by_cases hc : st.seenLines.contains n = true
        · rw [if_pos hc]
          exact mem_of_contains_true hc
        · rw [if_neg hc]
          exact List.mem_cons_self _ _
      · exact hmem2 d h2
    · intro hnd
      apply hnd2
      rw [hseen1]
      by_cases hc : st.seenLines.contains n = true
      · rw [if_pos hc]
        exact hnd
      · rw [if_neg hc]
        exact List.nodup_cons.mpr ⟨not_mem_of_contains_false (by
          revert hc
          cases st.seenLines.contains n <;> simp), hnd⟩

theorem processRanges_sound (settings : SettingsModel) (cfg : ResolverConfig)
    (doc : List String) (selection : List (Nat × Nat)) :
    ∀ (ranges : List (Nat × Nat)) (st : ScanState),
      LineCacheInv settings.syntaxStyle st.lineCache → ValueCacheInv cfg st.valueCache →
      (∀ d ∈ (processRanges settings cfg doc selection ranges st).1,
          DecValid settings cfg doc selection d
          ∧ d.line ∈ (processRanges settings cfg doc selection ranges st).2.seenLines)
      ∧ LineCacheInv settings.syntaxStyle
          (processRanges settings cfg doc selection ranges st).2.lineCache
      ∧ ValueCacheInv cfg (processRanges settings cfg doc selection ranges st).2.valueCache
      ∧ st.seenLines ⊆ (processRanges settings cfg doc selection ranges st).2.seenLines
      ∧ (st.seenLines.Nodup →
          (processRanges settings cfg doc selection ranges st).2.seenLines.Nodup) := by
  intro ranges
  induction ranges with
  | nil =>
    intro st hlc hvc
    exact ⟨fun d hd => absurd hd (List.not_mem_nil d), hlc, hvc, fun a ha => ha, fun h => h⟩
  | cons r rs ih =>
    intro st hlc hvc
    obtain ⟨hmem1, hlc1, hvc1, hsub1, hnd1⟩ :=
      processLinesFrom_sound settings cfg doc selection
        (lineAtPos doc (max (r.2 - 1) r.1) + 1 - lineAtPos doc r.1) (lineAtPos doc r.1)
        (getFenceStateBeforeLine doc (lineAtPos doc r.1)) st (lineAtPos_pos doc r.1) rfl hlc hvc
    obtain ⟨hmem2, hlc2, hvc2, hsub2, hnd2⟩ := ih (processRange settings cfg doc selection r st).2
      hlc1 hvc1
    have hstep : processRanges settings cfg doc selection (r :: rs) st =
        ((processRange settings cfg doc selection r st).1 ++
          (processRanges settings cfg doc selection rs
            (processRange settings cfg doc selection r st).2).1,
         (processRanges settings cfg doc selection rs
            (processRange settings cfg doc selection r st).2).2) := rfl
    rw [hstep]
    have hr : processRange settings cfg doc selection r st =
        processLinesFrom settings cfg doc selection (lineAtPos doc r.1)
          (lineAtPos doc (max (r.2 - 1) r.1) + 1 - lineAtPos doc r.1)
          (getFenceStateBeforeLine doc (lineAtPos doc r.1)) st := rfl
    rw [hr] at hmem2 hlc2 hvc2 hsub2 hnd2 ⊢
    refine ⟨?_, hlc2, hvc2, fun a ha => hsub2 (hsub1 ha), fun h => hnd2 (hnd1 h)⟩
    intro d hd
    rcases List.mem_append.mp hd with h1 | h2
    · obtain ⟨hvalid, hline⟩ := hmem1 d h1
      exact ⟨hvalid, hsub2 hline⟩
    · exact hmem2 d h2

theorem buildDecorations_sound (settings : SettingsModel) (dateFmt : Nat → String)
    (isLivePreview : Bool) (file : Option TFileModel)
    (frontmatter : Option (List (String × FmValue))) (doc : List String)
    (selection : List (Nat × Nat)) (visibleRanges : List (Nat × Nat)) (forceFullScan : Bool)
    (lineCache : List (Nat × LineMarkers)) (hlc : LineCacheInv settings.syntaxStyle lineCache) :
    (∀ d ∈ (buildDecorations settings dateFmt isLivePreview file frontmatter doc selection
        visibleRanges forceFullScan lineCache).1,
      ∃ f, file = some f ∧ isLivePreview = true
        ∧ DecValid settings
            ⟨frontmatter.getD [], settings.caseInsensitiveKeys, some f,
              settings.builtInKeysEnabled, dateFmt⟩ doc selection d
        ∧ d.line ∈ (buildDecorations settings dateFmt isLivePreview file frontmatter doc
            selection visibleRanges forceFullScan lineCache).2.seenLines)
    ∧ (buildDecorations settings dateFmt isLivePreview file frontmatter doc selection
        visibleRanges forceFullScan lineCache).2.seenLines.Nodup := by
  cases isLivePreview with
  | false =>
    refine ⟨fun d hd => ?_, List.Pairwise.nil⟩
    rw [show buildDecorations settings dateFmt false file frontmatter doc selection
        visibleRanges forceFullScan lineCache = ([], ⟨[], lineCache, []⟩) from rfl] at hd
    exact absurd hd (List.not_mem_nil d)
  | true =>
    cases file with
    | none =>
      refine ⟨fun d hd => ?_, ?_⟩
      · rw [show buildDecorations settings dateFmt true none frontmatter doc selection
            visibleRanges forceFullScan lineCache = ([], ⟨[], lineCache, []⟩) from rfl] at hd
        exact absurd hd (List.not_mem_nil d)
      · rw [show buildDecorations settings dateFmt true none frontmatter doc selection
            visibleRanges forceFullScan lineCache = ([], ⟨[], lineCache, []⟩) from rfl]
        exact List.Pairwise.nil
    | some f =>
      by_cases hguard : (frontmatter.isNone ∧ settings.builtInKeysEnabled = false)
      · have heq : buildDecorations settings dateFmt true (some f) frontmatter doc selection
            visibleRanges forceFullScan lineCache = ([], ⟨[], lineCache, []⟩) := by
          simp only [buildDecorations, Bool.not_true, Bool.false_eq_true, if_false]
          rw [if_pos (by exact ⟨hguard.1, by rw [hguard.2]; rfl⟩)]
        refine ⟨fun d hd => ?_, ?_⟩
        · rw [heq] at hd
          exact absurd hd (List.not_mem_nil d)
        · rw [heq]
          exact List.Pairwise.nil
      · have heq : buildDecorations settings dateFmt true (some f) frontmatter doc selection
            visibleRanges forceFullScan lineCache =
            processRanges settings
              ⟨frontmatter.getD [], settings.caseInsensitiveKeys, some f,
                settings.builtInKeysEnabled, dateFmt⟩ doc selection
              (if forceFullScan then [(0, docLength doc)] else visibleRanges)
              ⟨[], lineCache, []⟩ := by
          simp only [buildDecorations, Bool.not_true, Bool.false_eq_true, if_false]
          rw [if_neg (by
            intro hcontra
            exact hguard ⟨hcontra.1, by
              revert hcontra
              cases settings.builtInKeysEnabled <;> simp⟩)]
        rw [heq]
        obtain ⟨hmem, hlc1, hvc1, hsub1, hnd1⟩ := processRanges_sound settings
          ⟨frontmatter.getD [], settings.caseInsensitiveKeys, some f,
            settings.builtInKeysEnabled, dateFmt⟩ doc selection
          (if forceFullScan then [(0, docLength doc)] else visibleRanges)
          ⟨[], lineCache, []⟩ hlc (fun p hp => absurd hp (List.not_mem_nil p))
        refine ⟨?_, hnd1 List.Pairwise.nil⟩
        intro d hd
        obtain ⟨hvalid, hline⟩ := hmem d hd
        exact ⟨f, rfl, rfl, hvalid, hline⟩

/-! ### Claim C3 -/

theorem fenceCapture_length {text : String} {run : List Char}
    (h : fenceCapture text = some run) : 3 ≤ run.length := by
  rw [fenceCapture] at h
  by_cases h3 : 3 ≤ ((text.data.dropWhile Char.isWhitespace).takeWhile
      (fun c => c = backtickChar ∨ c = '~')).length
  · rw [if_pos h3] at h
    cases h
    exact h3
  · rw [if_neg h3] at h
    cases h

/-- Claim C3: a replacement decoration is never emitted for a marker on a
line inside a fenced code block, on a fence delimiter line, or overlapping
an inline code span; fence state is replayed line by line from the top of
the document, a capture line opening a fence when none is open (recording
character and run length) and closing an open fence only with the same
character and a run at least as long. -/
theorem C3_fence_and_code_exclusion :
    (∀ (settings : SettingsModel) (dateFmt : Nat → String) (lp : Bool)
        (file : Option TFileModel) (fm : Option (List (String × FmValue))) (doc : List String)
        (selection : List (Nat × Nat)) (vr : List (Nat × Nat)) (force : Bool)
        (lineCache : List (Nat × LineMarkers)),
        LineCacheInv settings.syntaxStyle lineCache →
        ∀ d ∈ (buildDecorations settings dateFmt lp file fm doc selection vr force
            lineCache).1,
          (updateFenceStateForLine (lineTextAt doc d.line)
              (getFenceStateBeforeLine doc d.line)).1.1 = false
          ∧ (updateFenceStateForLine (lineTextAt doc d.line)
              (getFenceStateBeforeLine doc d.line)).1.2 = false
          ∧ isMarkerInInlineCode d.marker (getInlineCodeRanges (lineTextAt doc d.line)) = false)
    ∧ (∀ (doc : List String) (n : Nat), getFenceStateBeforeLine doc n =
        (doc.take (n - 1)).foldl (fun st t => (updateFenceStateForLine t st).2)
          initialFenceState)
    ∧ (∀ text st, fenceCapture text = none →
        updateFenceStateForLine text st = ((st.inFence, false), st))
    ∧ (∀ text st run, fenceCapture text = some run → st.inFence = false →
        updateFenceStateForLine text st =
          ((false, true), ⟨true, String.mk (run.take 1), run.length⟩))
    ∧ (∀ text st run, fenceCapture text = some run → st.inFence = true →
        String.mk (run.take 1) = st.fenceChar → st.fenceLen ≤ run.length →
        updateFenceStateForLine text st = ((true, true), initialFenceState))
    ∧ (∀ text st run, fenceCapture text = some run → st.inFence = true →
        ¬(String.mk (run.take 1) = st.fenceChar ∧ st.fenceLen ≤ run.length) →
        updateFenceStateForLine text st = ((true, true), st)) := by
  refine ⟨?_, fun doc n => rfl, ?_, ?_, ?_, ?_⟩
  · intro settings dateFmt lp file fm doc selection vr force lineCache hlc d hd
    obtain ⟨f, _, _, hvalid, _⟩ := (buildDecorations_sound settings dateFmt lp file fm doc
      selection vr force lineCache hlc).1 d hd
    exact ⟨hvalid.1, hvalid.2.1, hvalid.2.2.2.1⟩
  · intro text st h
    rw [updateFenceStateForLine, h]
  · intro text st run h hin
    rw [updateFenceStateForLine, h]
    simp only [hin, Bool.not_false, if_true]
  · intro text st run h hin hchar hlen
    have hne : String.mk (run.take 1) ≠ "" := by
      have h3 := fenceCapture_length h
      cases run with
      | nil => simp at h3
      | cons c cs =>
        show String.mk [c] ≠ ""
        intro hcontra
        have hlen := congrArg String.length hcontra
        simp [String.length] at hlen
    rw [updateFenceStateForLine, h]
    simp only [hin, Bool.not_true, Bool.false_eq_true, if_false]
    rw [if_pos ⟨hne, hchar, hlen⟩]
  · intro text st run h hin hne
    rw [updateFenceStateForLine, h]
    simp only [hin, Bool.not_true, Bool.false_eq_true, if_false]
    rw [if_neg (by
      intro hcontra
      exact hne ⟨hcontra.2.1, hcontra.2.2⟩)]

/-- Witness for C3 at a concrete input: the single decoration of a
one-line document is outside any fence and outside inline code. -/
theorem C3_witness :
    (updateFenceStateForLine (lineTextAt ["[%a]"] 1) (getFenceStateBeforeLine ["[%a]"] 1)).1.1 =
        false
    ∧ (updateFenceStateForLine (lineTextAt ["[%a]"] 1)
        (getFenceStateBeforeLine ["[%a]"] 1)).1.2 = false
    ∧ isMarkerInInlineCode (⟨0, 4, "a"⟩ : LineMarker)
        (getInlineCodeRanges (lineTextAt ["[%a]"] 1)) = false := by
  have h := (C3_fence_and_code_exclusion.1 ⟨SyntaxStyle.brackets, false, false⟩ (fun _ => "")
    true (some ⟨"n.md", "n", "n.md", none, 0, 0, "md"⟩) (some [("a", FmValue.vStr "v")])
    ["[%a]"] [] [(0, 4)] false [] (fun e he => absurd he (List.not_mem_nil e))
    ⟨0, 4, "v", ⟨false, false, false, false⟩, 1, ⟨0, 4, "a"⟩⟩ (by decide))
  exact h

/-! ### Claim C4 -/

/-- Claim C4: during a decoration pass every marker whose span contains a
zero-width caret is skipped (no emitted decoration span contains such a
caret), and on any update with a document change or selection change whose
cursor-marker key (the canonical sorted encoding of the set of
caret-containing marker spans) differs from the stored one, a rebuild is
forced and the new key is stored — so a marker is substituted on the next
evaluation once the caret leaves its span, as the concrete conjuncts show:
with the caret inside the marker span nothing is decorated, with the caret
outside the marker is replaced. -/
theorem C4_caret_markers_skipped :
    (∀ (settings : SettingsModel) (dateFmt : Nat → String) (lp : Bool)
        (file : Option TFileModel) (fm : Option (List (String × FmValue))) (doc : List String)
        (selection : List (Nat × Nat)) (vr : List (Nat × Nat)) (force : Bool)
        (lineCache : List (Nat × LineMarkers)),
        LineCacheInv settings.syntaxStyle lineCache →
        ∀ d ∈ (buildDecorations settings dateFmt lp file fm doc selection vr force
            lineCache).1,
          selection.any (fun s =>
            decide (s.1 = s.2) && decide (d.start ≤ s.1) && decide (s.2 ≤ d.stop)) = false)
    ∧ (∀ (settingsStyle : SyntaxStyle) (ps : PluginState) (u : ViewUpdateModel),
        (u.docChanged = true ∨ u.selectionSet = true) →
        getCursorMarkerKey settingsStyle u.doc u.selection ≠ ps.cursorMarkerKey →
        (updateStep settingsStyle ps u).2.1 = true
        ∧ (updateStep settingsStyle ps u).1.cursorMarkerKey =
            getCursorMarkerKey settingsStyle u.doc u.selection)
    ∧ ((buildDecorations ⟨SyntaxStyle.brackets, false, false⟩ (fun _ => "") true
        (some ⟨"n.md", "n", "n.md", none, 0, 0, "md"⟩) (some [("a", FmValue.vStr "v")])
        ["x [%a]"] [(3, 3)] [(0, 7)] false []).1 = [])
    ∧ ((buildDecorations ⟨SyntaxStyle.brackets, false, false⟩ (fun _ => "") true
        (some ⟨"n.md", "n", "n.md", none, 0, 0, "md"⟩) (some [("a", FmValue.vStr "v")])
        ["x [%a]"] [(0, 0)] [(0, 7)] false []).1.map (fun d => (d.start, d.stop, d.value))) =
        [(2, 6, "v")] := by
  refine ⟨?_, ?_, by rfl, by rfl⟩
  · intro settings dateFmt lp file fm doc selection vr force lineCache hlc d hd
    obtain ⟨f, _, _, hvalid, _⟩ := (buildDecorations_sound settings dateFmt lp file fm doc
      selection vr force lineCache hlc).1 d hd
    exact hvalid.2.2.2.2.2.2.1
  · intro settingsStyle ps u hds hkey
    have hbe : (getCursorMarkerKey settingsStyle u.doc u.selection ==
        ps.cursorMarkerKey) = false := by
      rw [beq_eq_false_iff_ne]
      exact hkey
    have hds2 : (u.docChanged || u.selectionSet) = true := by
      rcases hds with h | h <;> simp [h]
    constructor
    · simp only [updateStep, hds2, hbe, Bool.not_false, Bool.and_true, Bool.true_and,
        Bool.or_true, Bool.true_or]
    · simp only [updateStep, hds2, hbe, Bool.not_false, Bool.and_true, Bool.true_and,
        if_true]

/-- Witness for C4: the rebuild clause applied to a concrete selection
change that moves the caret out of the marker span (the stored key names
the span, the new key is empty), forcing a rebuild and storing the new
key. -/
theorem C4_witness :
    (updateStep SyntaxStyle.brackets ⟨SyntaxStyle.brackets, "2:6", []⟩
        ⟨false, false, true, false, false, ["x [%a]"], [(0, 0)]⟩).2.1 = true
    ∧ (updateStep SyntaxStyle.brackets ⟨SyntaxStyle.brackets, "2:6", []⟩
        ⟨false, false, true, false, false, ["x [%a]"], [(0, 0)]⟩).1.cursorMarkerKey =
      getCursorMarkerKey SyntaxStyle.brackets ["x [%a]"] [(0, 0)] :=
  C4_caret_markers_skipped.2.1 SyntaxStyle.brackets ⟨SyntaxStyle.brackets, "2:6", []⟩
    ⟨false, false, true, false, false, ["x [%a]"], [(0, 0)]⟩ (Or.inr rfl) (by decide)

/-! ### Claim C5 -/

theorem replaceTokensGo_all_absent (cs : List Char) (resolve : String → Option String) :
    ∀ (ms : List RawMatch) (lastIndex : Nat),
      (∀ m ∈ ms, resolve (String.mk (jsTrim m.rawKey.data)) = none) →
      (replaceTokensGo cs resolve ms lastIndex).2 = false := by
  intro ms
  induction ms with
  | nil =>
    intro lastIndex _
    simp [replaceTokensGo]
  | cons m rest ih =>
    intro lastIndex h
    have hm := h m (List.mem_cons_self _ _)
    have hrest := ih m.mstop (fun x hx => h x (List.mem_cons_of_mem _ hx))
    simp only [replaceTokensGo, hm, hrest, Bool.or_self]

theorem replaceTokensGo_absent_fragment (cs : List Char) (resolve : String → Option String) :
    ∀ (ms : List RawMatch) (lastIndex : Nat) (m : RawMatch), m ∈ ms →
      resolve (String.mk (jsTrim m.rawKey.data)) = none →
      Fragment.text (sliceStr cs m.mstart m.mstop) ∈
        (replaceTokensGo cs resolve ms lastIndex).1 := by
  intro ms
  induction ms with
  | nil =>
    intro lastIndex m hm
    cases hm
  | cons m0 rest ih =>
    intro lastIndex m hm habsent
    rcases List.mem_cons.mp hm with rfl | hmem
    · simp only [replaceTokensGo, habsent]
      exact List.mem_append.mpr (Or.inr (List.mem_cons_self _ _))
    · have := ih m0.mstop m hmem habsent
      simp only [replaceTokensGo]
      cases hres : resolve (String.mk (jsTrim m0.rawKey.data)) <;>
        exact List.mem_append.mpr (Or.inr (List.mem_cons_of_mem _ this))

/-- Claim C5: a marker whose key resolves to absent produces no decoration
and no replacement — every emitted live-preview decoration carries a
successfully resolved key (so an absent marker span is left untouched), a
reading-mode text node all of whose markers are absent is not replaced at
all (byte-identical output), and each absent match contributes exactly its
raw matched text to the built fragment. -/
theorem C5_absent_markers_inert :
    (∀ (settings : SettingsModel) (dateFmt : Nat → String) (lp : Bool)
        (file : Option TFileModel) (fm : Option (List (String × FmValue))) (doc : List String)
        (selection : List (Nat × Nat)) (vr : List (Nat × Nat)) (force : Bool)
        (lineCache : List (Nat × LineMarkers)),
        LineCacheInv settings.syntaxStyle lineCache →
        ∀ d ∈ (buildDecorations settings dateFmt lp file fm doc selection vr force
            lineCache).1,
          ∃ f, file = some f ∧
            freshResolve ⟨fm.getD [], settings.caseInsensitiveKeys, some f,
              settings.builtInKeysEnabled, dateFmt⟩ d.marker.key = some d.value)
    ∧ (∀ (style : SyntaxStyle) (resolve : String → Option String) (text : String),
        (∀ m ∈ scanRawMatches style text,
          resolve (String.mk (jsTrim m.rawKey.data)) = none) →
        replaceTokensInTextNode style resolve text = none)
    ∧ (∀ (style : SyntaxStyle) (resolve : String → Option String) (text : String)
        (m : RawMatch), m ∈ scanRawMatches style text →
        resolve (String.mk (jsTrim m.rawKey.data)) = none →
        Fragment.text (sliceStr text.data m.mstart m.mstop) ∈
          (replaceTokensGo text.data resolve (scanRawMatches style text) 0).1) := by
  refine ⟨?_, ?_, ?_⟩
  · intro settings dateFmt lp file fm doc selection vr force lineCache hlc d hd
    obtain ⟨f, hf, _, hvalid, _⟩ := (buildDecorations_sound settings dateFmt lp file fm doc
      selection vr force lineCache hlc).1 d hd
    exact ⟨f, hf, hvalid.2.2.2.2.2.2.2.1⟩
  · intro style resolve text h
    rw [replaceTokensInTextNode]
    by_cases hop : (!strIncludes text (getSyntaxOpen style)) = true
    · rw [if_pos hop]
    · rw [if_neg hop]
      have hfalse := replaceTokensGo_all_absent text.data resolve (scanRawMatches style text) 0 h
      simp only [hfalse, Bool.false_eq_true, if_false]
  · intro style resolve text m hm habsent
    exact replaceTokensGo_absent_fragment text.data resolve (scanRawMatches style text) 0 m
      hm habsent

/-- Witness for C5 at a concrete input: a text node whose only marker key
is absent is left untouched, and its raw marker text appears verbatim in
the fragment list. -/
theorem C5_witness :
    replaceTokensInTextNode SyntaxStyle.brackets
        (fun k => resolveFrontmatterString [("a", FmValue.vStr "v")] k false false)
        "missing: [%nope]" = none
    ∧ Fragment.text (sliceStr "missing: [%nope]".data 9 16) ∈
        (replaceTokensGo "missing: [%nope]".data
          (fun k => resolveFrontmatterString [("a", FmValue.vStr "v")] k false false)
          (scanRawMatches SyntaxStyle.brackets "missing: [%nope]") 0).1 :=
  ⟨C5_absent_markers_inert.2.1 SyntaxStyle.brackets
    (fun k => resolveFrontmatterString [("a", FmValue.vStr "v")] k false false)
    "missing: [%nope]" (by decide),
   C5_absent_markers_inert.2.2 SyntaxStyle.brackets
    (fun k => resolveFrontmatterString [("a", FmValue.vStr "v")] k false false)
    "missing: [%nope]" ⟨9, 16, "nope"⟩ (by decide) (by decide)⟩

/-! ### Claim C6 -/

/-- Counterexample to claim C6 as stated: an update whose only trigger is a
syntax-style change (no refresh effect) does force a rebuild, but with
forceFullScan false — the rebuild scans only the visible ranges.  On a
two-line document whose marker sits on the non-visible second line, the
style-change evaluation produces no decorations while a full-document scan
does, so the full document is NOT scanned on a style change. -/
theorem C6_counterexample :
    ((updateStep SyntaxStyle.doubleBraces ⟨SyntaxStyle.brackets, "", []⟩
        ⟨false, false, false, false, false, ["x", "\x7b\x7ba\x7d\x7d"], []⟩).2.1 = true)
    ∧ ((updateStep SyntaxStyle.doubleBraces ⟨SyntaxStyle.brackets, "", []⟩
        ⟨false, false, false, false, false, ["x", "\x7b\x7ba\x7d\x7d"], []⟩).2.2 = false)
    ∧ ((buildDecorations ⟨SyntaxStyle.doubleBraces, false, false⟩ (fun _ => "") true
        (some ⟨"n.md", "n", "n.md", none, 0, 0, "md"⟩) (some [("a", FmValue.vStr "v")])
        ["x", "\x7b\x7ba\x7d\x7d"] [] [(0, 1)] false []).1 = [])
    ∧ ((buildDecorations ⟨SyntaxStyle.doubleBraces, false, false⟩ (fun _ => "") true
        (some ⟨"n.md", "n", "n.md", none, 0, 0, "md"⟩) (some [("a", FmValue.vStr "v")])
        ["x", "\x7b\x7ba\x7d\x7d"] [] [(0, 1)] true []).1.map
        (fun d => (d.start, d.stop, d.value))) = [(2, 7, "v")] := by
  exact ⟨rfl, rfl, rfl, rfl⟩

/-- Claim C6 (amended): the decoration engine scans the full document
exactly when the evaluation carries an explicit refresh effect
(forceFullScan equals hasRefreshEffect, so a syntax-style change rebuilds
over the visible ranges only); with forceFullScan the scanned range list is
the whole document, without it the visible ranges; and a line shared by
several ranges is processed only once (the seen-line set is duplicate-free
and every decoration comes from a seen line). -/
theorem C6_scan_range_selection :
    (∀ (settingsStyle : SyntaxStyle) (ps : PluginState) (u : ViewUpdateModel),
        (updateStep settingsStyle ps u).2.2 = u.hasRefreshEffect)
    ∧ (∀ (settings : SettingsModel) (dateFmt : Nat → String) (f : TFileModel)
        (fm : Option (List (String × FmValue))) (doc : List String)
        (selection : List (Nat × Nat)) (vr : List (Nat × Nat))
        (lineCache : List (Nat × LineMarkers)),
        ¬(fm.isNone = true ∧ settings.builtInKeysEnabled = false) →
        buildDecorations settings dateFmt true (some f) fm doc selection vr true lineCache =
          processRanges settings
            ⟨fm.getD [], settings.caseInsensitiveKeys, some f, settings.builtInKeysEnabled,
              dateFmt⟩ doc selection [(0, docLength doc)] ⟨[], lineCache, []⟩)
    ∧ (∀ (settings : SettingsModel) (dateFmt : Nat → String) (f : TFileModel)
        (fm : Option (List (String × FmValue))) (doc : List String)
        (selection : List (Nat × Nat)) (vr : List (Nat × Nat))
        (lineCache : List (Nat × LineMarkers)),
        ¬(fm.isNone = true ∧ settings.builtInKeysEnabled = false) →
        buildDecorations settings dateFmt true (some f) fm doc selection vr false lineCache =
          processRanges settings
            ⟨fm.getD [], settings.caseInsensitiveKeys, some f, settings.builtInKeysEnabled,
              dateFmt⟩ doc selection vr ⟨[], lineCache, []⟩)
    ∧ (∀ (settings : SettingsModel) (dateFmt : Nat → String) (lp : Bool)
        (file : Option TFileModel) (fm : Option (List (String × FmValue))) (doc : List String)
        (selection : List (Nat × Nat)) (vr : List (Nat × Nat)) (force : Bool)
        (lineCache : List (Nat × LineMarkers)),
        LineCacheInv settings.syntaxStyle lineCache →
        (buildDecorations settings dateFmt lp file fm doc selection vr force
          lineCache).2.seenLines.Nodup
        ∧ ∀ d ∈ (buildDecorations settings dateFmt lp file fm doc selection vr force
            lineCache).1,
          d.line ∈ (buildDecorations settings dateFmt lp file fm doc selection vr force
            lineCache).2.seenLines) := by
  have hguard : ∀ (settings : SettingsModel) (fm : Option (List (String × FmValue))),
      ¬(fm.isNone = true ∧ settings.builtInKeysEnabled = false) →
      ¬(fm.isNone = true ∧ (!settings.builtInKeysEnabled) = true) := by
    intro settings fm h hcontra
    exact h ⟨hcontra.1, by
      revert hcontra
      cases settings.builtInKeysEnabled <;> simp⟩
  refine ⟨?_, ?_, ?_, ?_⟩
  · intro settingsStyle ps u
    rfl
  · intro settings dateFmt f fm doc selection vr lineCache h
    simp only [buildDecorations, Bool.not_true, Bool.false_eq_true, if_false]
    rw [if_neg (hguard settings fm h)]
    try simp
  · intro settings dateFmt f fm doc selection vr lineCache h
    simp only [buildDecorations, Bool.not_true, Bool.false_eq_true, if_false]
    rw [if_neg (hguard settings fm h)]
    try simp
  · intro settings dateFmt lp file fm doc selection vr force lineCache hlc
    obtain ⟨hmem, hnd⟩ := buildDecorations_sound settings dateFmt lp file fm doc selection vr
      force lineCache hlc
    refine ⟨hnd, ?_⟩
    intro d hd
    obtain ⟨f, _, _, _, hline⟩ := hmem d hd
    exact hline

/-- Witness for C6 (amended): the full-scan range selection at a concrete
input with frontmatter present. -/
theorem C6_witness :
    buildDecorations ⟨SyntaxStyle.brackets, false, false⟩ (fun _ => "") true
        (some ⟨"n.md", "n", "n.md", none, 0, 0, "md"⟩) (some [("a", FmValue.vStr "v")])
        ["[%a]"] [] [(0, 1)] true [] =
      processRanges ⟨SyntaxStyle.brackets, false, false⟩
        ⟨[("a", FmValue.vStr "v")], false, some ⟨"n.md", "n", "n.md", none, 0, 0, "md"⟩,
          false, fun _ => ""⟩ ["[%a]"] [] [(0, docLength ["[%a]"])] ⟨[], [], []⟩ :=
  C6_scan_range_selection.2.1 ⟨SyntaxStyle.brackets, false, false⟩ (fun _ => "")
    ⟨"n.md", "n", "n.md", none, 0, 0, "md"⟩ (some [("a", FmValue.vStr "v")]) ["[%a]"] [] 
    [(0, 1)] [] (by decide)

/-! ### Claim C8 -/

theorem maskChars_length (markers : List LineMarker) :
    ∀ (cs : List Char) (i : Nat), (maskChars markers cs i).length = cs.length := by
  intro cs
  induction cs with
  | nil => intro i; rfl
  | cons c rest ih =>
    intro i
    simp [maskChars, ih]

theorem maskChars_get (markers : List LineMarker) :
    ∀ (cs : List Char) (i j : Nat),
      (maskChars markers cs i).get? j = (cs.get? j).map (fun c =>
        if markers.any (fun m => decide (m.mfrom ≤ i + j) && decide (i + j < m.mto)) then 'x'
        else c) := by
  intro cs
  induction cs with
  | nil => intro i j; rfl
  | cons c rest ih =>
    intro i j
    cases j with
    | zero => simp [maskChars]
    | succ j2 =>
      rw [maskChars]
      show (maskChars markers rest (i + 1)).get? j2 = _
      rw [ih (i + 1) j2]
      show _ = (rest.get? j2).map _
      cases rest.get? j2 with
      | none => rfl
      | some c2 =>
        have harith : i + 1 + j2 = i + (j2 + 1) := by omega
        rw [harith]

theorem maskMarkerText_spec (text : String) (markers : List LineMarker) :
    (maskMarkerText text markers).data.length = text.data.length
    ∧ ∀ j, (maskMarkerText text markers).data.get? j = (text.data.get? j).map (fun c =>
        if markers.any (fun m => decide (m.mfrom ≤ j) && decide (j < m.mto)) then 'x'
        else c) := by
  by_cases he : markers.isEmpty = true
  · have hm : markers = [] := by
      cases markers with
      | nil => rfl
      | cons a l => cases he
    subst hm
    rw [maskMarkerText]
    refine ⟨rfl, ?_⟩
    intro j
    simp
  · have heq : maskMarkerText text markers = String.mk (maskChars markers text.data 0) := by
      rw [maskMarkerText, if_neg he]
    rw [heq]
    refine ⟨maskChars_length markers text.data 0, ?_⟩
    intro j
    have := maskChars_get markers text.data 0 j
    simpa using this

theorem takeWhile_run_pos {cs : List Char} {i : Nat} (h : i < cs.length) {ch : Char}
    (hch : cs.getD i (Char.ofNat 0) = ch) :
    1 ≤ ((cs.drop i).takeWhile (fun c => c = ch)).length := by
  rw [List.drop_eq_getElem_cons h]
  have hgd : cs[i] = ch := by
    rw [← hch, List.getD_eq_getElem?_getD, List.getElem?_eq_getElem h]
    rfl
  rw [List.takeWhile_cons]
  simp [hgd]

theorem getEmphasisRangesAux_flags (cs : List Char) (code : List InlineCodeRange) :
    ∀ (fuel i : Nat) (stack : List EmphEntry),
      ∀ r ∈ getEmphasisRangesAux cs code i stack fuel,
        ∃ len, 1 ≤ len ∧ len ≤ 3 ∧ r.italic = decide (len = 1 ∨ len = 3)
          ∧ r.bold = decide (len = 2 ∨ len = 3) := by
  intro fuel
  induction fuel with
  | zero =>
    intro i stack r hr
    cases hr
  | succ f ih =>
    intro i stack r hr
    rw [getEmphasisRangesAux] at hr
    by_cases hlen : i < cs.length
    · rw [if_pos hlen] at hr
      cases hfind : findInlineRangeAt i code with
      | some range =>
        simp only [hfind] at hr
        exact ih range.rto stack r hr
      | none =>
        simp only [hfind] at hr
        by_cases hch : (cs.getD i (Char.ofNat 0) ≠ '*' ∧ cs.getD i (Char.ofNat 0) ≠ '_')
        · rw [if_pos hch] at hr
          exact ih (i + 1) stack r hr
        · rw [if_neg hch] at hr
          cases stack with
          | nil =>
            exact ih _ _ r hr
          | cons top rest =>
            simp only [] at hr
            by_cases htop : (top.ch = cs.getD i (Char.ofNat 0) ∧
                top.len = min ((cs.drop i).takeWhile
                  (fun c => c = cs.getD i (Char.ofNat 0))).length 3)
            · rw [if_pos htop] at hr
              rcases List.mem_cons.mp hr with rfl | hmem
              · have hrun : 1 ≤ ((cs.drop i).takeWhile
                    (fun c => c = cs.getD i (Char.ofNat 0))).length :=
                  takeWhile_run_pos hlen rfl
                refine ⟨min ((cs.drop i).takeWhile
                  (fun c => c = cs.getD i (Char.ofNat 0))).length 3, ?_, ?_, rfl, rfl⟩
                · omega
                · omega
              · exact ih _ _ r hmem
            · rw [if_neg htop] at hr
              exact ih _ _ r hr
    · rw [if_neg hlen] at hr
      cases hr

theorem getDelimitedRangesAux_boundary (cs d : List Char) (code : List InlineCodeRange) :
    ∀ (fuel i : Nat) (openStart : Option Nat),
      (∀ os, openStart = some os →
        (cs.drop os).take d.length = d ∧ findInlineRangeAt os code = none) →
      ∀ r ∈ getDelimitedRangesAux cs d code i openStart fuel,
        ∃ os, r.rfrom = os + d.length
          ∧ (cs.drop os).take d.length = d ∧ (cs.drop r.rto).take d.length = d
          ∧ findInlineRangeAt os code = none ∧ findInlineRangeAt r.rto code = none := by
  intro fuel
  induction fuel with
  | zero =>
    intro i openStart hinv r hr
    cases hr
  | succ f ih =>
    intro i openStart
    cases openStart with
    | none =>
      intro hinv r hr
      have hunf : getDelimitedRangesAux cs d code i none (f + 1) =
          if i + d.length ≤ cs.length then
            match findInlineRangeAt i code with
            | some range => getDelimitedRangesAux cs d code range.rto none f
            | none =>
              if (cs.drop i).take d.length = d then
                getDelimitedRangesAux cs d code (i + d.length) (some i) f
              else getDelimitedRangesAux cs d code (i + 1) none f
          else [] := rfl
      rw [hunf] at hr
      by_cases hlen : i + d.length ≤ cs.length
      · rw [if_pos hlen] at hr
        cases hfind : findInlineRangeAt i code with
        | some range =>
          simp only [hfind] at hr
          exact ih range.rto none hinv r hr
        | none =>
          simp only [hfind] at hr
          by_cases hdel : (cs.drop i).take d.length = d
          · rw [if_pos hdel] at hr
            refine ih (i + d.length) (some i) ?_ r hr
            intro os hosEq
            cases hosEq
            exact ⟨hdel, hfind⟩
          · rw [if_neg hdel] at hr
            exact ih (i + 1) none hinv r hr
      · rw [if_neg hlen] at hr
        cases hr
    | some os =>
      intro hinv r hr
      have hunf : getDelimitedRangesAux cs d code i (some os) (f + 1) =
          if i + d.length ≤ cs.length then
            match findInlineRangeAt i code with
            | some range => getDelimitedRangesAux cs d code range.rto (some os) f
            | none =>
              if (cs.drop i).take d.length = d then
                (⟨os + d.length, i⟩ : DelimitedRange) ::
                  getDelimitedRangesAux cs d code (i + d.length) none f
              else getDelimitedRangesAux cs d code (i + 1) (some os) f
          else [] := rfl
      rw [hunf] at hr
      by_cases hlen : i + d.length ≤ cs.length
      · rw [if_pos hlen] at hr
        cases hfind : findInlineRangeAt i code with
        | some range =>
          simp only [hfind] at hr
          exact ih range.rto (some os) hinv r hr
        | none =>
          simp only [hfind] at hr
          by_cases hdel : (cs.drop i).take d.length = d
          · rw [if_pos hdel] at hr
            rcases List.mem_cons.mp hr with rfl | hmem
            · obtain ⟨hd1, hd2⟩ := hinv os rfl
              exact ⟨os, rfl, hd1, hdel, hd2, hfind⟩
            · refine ih (i + d.length) none ?_ r hmem
              intro os2 hcontra
              cases hcontra
          · rw [if_neg hdel] at hr
            exact ih (i + 1) (some os) hinv r hr
      · rw [if_neg hlen] at hr
        cases hr

/-- Claim C8: marker spans are masked with a neutral filler before the
emphasis, strikethrough, and highlight ranges of a line are computed
(length preserved, masked positions become the filler, others unchanged,
and every emitted decoration's style is computed from ranges over the
masked text); star/underscore runs are paired with a stack discipline in
which a run (capped at 3) closes only a matching top, lengths 1/2/3 giving
italic/bold/both; the tilde-tilde and equals-equals delimiters pair as
fixed two-character delimiters standing at both ends of each range;
positions inside inline-code ranges are skipped; and a marker overlapping
a resulting range inherits that range's style. -/
theorem C8_masking_and_emphasis :
    (∀ text markers, (maskMarkerText text markers).data.length = text.data.length)
    ∧ (∀ text markers j, (maskMarkerText text markers).data.get? j =
        (text.data.get? j).map (fun c =>
          if markers.any (fun m => decide (m.mfrom ≤ j) && decide (j < m.mto)) then 'x'
          else c))
    ∧ (∀ (settings : SettingsModel) (dateFmt : Nat → String) (lp : Bool)
        (file : Option TFileModel) (fm : Option (List (String × FmValue))) (doc : List String)
        (selection : List (Nat × Nat)) (vr : List (Nat × Nat)) (force : Bool)
        (lineCache : List (Nat × LineMarkers)),
        LineCacheInv settings.syntaxStyle lineCache →
        ∀ d ∈ (buildDecorations settings dateFmt lp file fm doc selection vr force
            lineCache).1,
          d.markdownStyle = getMarkdownStyleForMarker d.marker
            (getEmphasisRanges (maskMarkerText (lineTextAt doc d.line)
                (computeLineMarkers settings.syntaxStyle (lineTextAt doc d.line)))
              (getInlineCodeRanges (lineTextAt doc d.line)))
            (getDelimitedRanges (maskMarkerText (lineTextAt doc d.line)
                (computeLineMarkers settings.syntaxStyle (lineTextAt doc d.line))) "~~"
              (getInlineCodeRanges (lineTextAt doc d.line)))
            (getDelimitedRanges (maskMarkerText (lineTextAt doc d.line)
                (computeLineMarkers settings.syntaxStyle (lineTextAt doc d.line))) "=="
              (getInlineCodeRanges (lineTextAt doc d.line))))
    ∧ (∀ text code, ∀ r ∈ getEmphasisRanges text code,
        ∃ len, 1 ≤ len ∧ len ≤ 3 ∧ r.italic = decide (len = 1 ∨ len = 3)
          ∧ r.bold = decide (len = 2 ∨ len = 3))
    ∧ (∀ (text delimiter : String) code, ∀ r ∈ getDelimitedRanges text delimiter code,
        ∃ os, r.rfrom = os + delimiter.data.length
          ∧ (text.data.drop os).take delimiter.data.length = delimiter.data
          ∧ (text.data.drop r.rto).take delimiter.data.length = delimiter.data
          ∧ findInlineRangeAt os code = none ∧ findInlineRangeAt r.rto code = none)
    ∧ (∀ cs code i stack fuel range, i < cs.length → findInlineRangeAt i code = some range →
        getEmphasisRangesAux cs code i stack (fuel + 1) =
          getEmphasisRangesAux cs code range.rto stack fuel)
    ∧ (∀ (marker : LineMarker) (er : List EmphasisRange) (sr hr : List DelimitedRange),
        (∀ r ∈ er, rangesOverlap marker.mfrom marker.mto r.rfrom r.rto = true →
          (r.italic = true → (getMarkdownStyleForMarker marker er sr hr).italic = true)
          ∧ (r.bold = true → (getMarkdownStyleForMarker marker er sr hr).bold = true))
        ∧ (∀ r ∈ sr, rangesOverlap marker.mfrom marker.mto r.rfrom r.rto = true →
            (getMarkdownStyleForMarker marker er sr hr).strike = true)
        ∧ (∀ r ∈ hr, rangesOverlap marker.mfrom marker.mto r.rfrom r.rto = true →
            (getMarkdownStyleForMarker marker er sr hr).highlight = true)) := by
  refine ⟨?_, ?_, ?_, ?_, ?_, ?_, ?_⟩
  · intro text markers
    exact (maskMarkerText_spec text markers).1
  · intro text markers j
    exact (maskMarkerText_spec text markers).2 j
  · intro settings dateFmt lp file fm doc selection vr force lineCache hlc d hd
    obtain ⟨f, _, _, hvalid, _⟩ := (buildDecorations_sound settings dateFmt lp file fm doc
      selection vr force lineCache hlc).1 d hd
    exact hvalid.2.2.2.2.2.2.2.2
  · intro text code r hr
    exact getEmphasisRangesAux_flags text.data code (text.data.length + 1) 0 [] r hr
  · intro text delimiter code r hr
    exact getDelimitedRangesAux_boundary text.data delimiter.data code
      (text.data.length + 1) 0 none (fun os hcontra => absurd hcontra (by simp)) r hr
  · intro cs code i stack fuel range hlen hfind
    rw [getEmphasisRangesAux, if_pos hlen]
    simp only [hfind]
  · intro marker er sr hr
    refine ⟨?_, ?_, ?_⟩
    · intro r hmem hov
      constructor
      · intro hit
        show er.any _ = true
        exact List.any_eq_true.mpr ⟨r, hmem, by rw [hov, hit]; rfl⟩
      · intro hb
        show er.any _ = true
        exact List.any_eq_true.mpr ⟨r, hmem, by rw [hov, hb]; rfl⟩
    · intro r hmem hov
      show sr.any _ = true
      exact List.any_eq_true.mpr ⟨r, hmem, hov⟩
    · intro r hmem hov
      show hr.any _ = true
      exact List.any_eq_true.mpr ⟨r, hmem, hov⟩

/-- Witness for C8 at a concrete input: the italic range of a starred line
is inherited by an overlapping marker. -/
theorem C8_witness :
    ((getMarkdownStyleForMarker ⟨1, 5, "k"⟩ [⟨1, 8, true, false⟩] [] []).italic = true)
    ∧ ((getMarkdownStyleForMarker ⟨1, 5, "k"⟩ [⟨1, 8, true, false⟩] [] []).bold = true →
        False) :=
  ⟨((C8_masking_and_emphasis.2.2.2.2.2.2 ⟨1, 5, "k"⟩ [⟨1, 8, true, false⟩] [] []).1
      ⟨1, 8, true, false⟩ (List.mem_singleton.mpr rfl) (by decide)).1 rfl,
   fun h => by cases h⟩

/-! ### Claim C10 -/

theorem processLine_indep (settings : SettingsModel) (cfg : ResolverConfig) (doc : List String)
    (selection : List (Nat × Nat)) (n : Nat) (fence : FenceState) (st1 st2 : ScanState)
    (hseen : st1.seenLines = st2.seenLines) (hvc : st1.valueCache = st2.valueCache)
    (h1 : LineCacheInv settings.syntaxStyle st1.lineCache)
    (h2 : LineCacheInv settings.syntaxStyle st2.lineCache) :
    (processLine settings cfg doc selection n fence st1).1 =
      (processLine settings cfg doc selection n fence st2).1
    ∧ (processLine settings cfg doc selection n fence st1).2.1 =
      (processLine settings cfg doc selection n fence st2).2.1
    ∧ (processLine settings cfg doc selection n fence st1).2.2.seenLines =
      (processLine settings cfg doc selection n fence st2).2.2.seenLines
    ∧ (processLine settings cfg doc selection n fence st1).2.2.valueCache =
      (processLine settings cfg doc selection n fence st2).2.2.valueCache
    ∧ LineCacheInv settings.syntaxStyle
        (processLine settings cfg doc selection n fence st1).2.2.lineCache
    ∧ LineCacheInv settings.syntaxStyle
        (processLine settings cfg doc selection n fence st2).2.2.lineCache := by
  obtain ⟨hms1, hlc1⟩ := getLineMarkers_inv settings.syntaxStyle n
    (lineTextAt doc n) st1.lineCache h1
  obtain ⟨hms2, hlc2⟩ := getLineMarkers_inv settings.syntaxStyle n
    (lineTextAt doc n) st2.lineCache h2
  by_cases hs : st1.seenLines.contains n = true
  · have hs2 : st2.seenLines.contains n = true := hseen ▸ hs
    simp only [processLine, hs, hs2, if_true]
    simp_all
  · have hs2 : ¬(st2.seenLines.contains n = true) := hseen ▸ hs
    by_cases hmk : computeLineMarkers settings.syntaxStyle (lineTextAt doc n) = []
    · simp only [processLine, hs, hs2, if_false, hms1, hms2, hmk, if_true]
      simp_all
    · simp only [processLine, hs, hs2, if_false, hms1, hms2, if_neg hmk]
      simp_all

theorem processLinesFrom_indep (settings : SettingsModel) (cfg : ResolverConfig)
    (doc : List String) (selection : List (Nat × Nat)) :
    ∀ (count n : Nat) (fence : FenceState) (st1 st2 : ScanState),
      st1.seenLines = st2.seenLines → st1.valueCache = st2.valueCache →
      LineCacheInv settings.syntaxStyle st1.lineCache →
      LineCacheInv settings.syntaxStyle st2.lineCache →
      (processLinesFrom settings cfg doc selection n count fence st1).1 =
        (processLinesFrom settings cfg doc selection n count fence st2).1
      ∧ (processLinesFrom settings cfg doc selection n count fence st1).2.seenLines =
        (processLinesFrom settings cfg doc selection n count fence st2).2.seenLines
      ∧ (processLinesFrom settings cfg doc selection n count fence st1).2.valueCache =
        (processLinesFrom settings cfg doc selection n count fence st2).2.valueCache
      ∧ LineCacheInv settings.syntaxStyle
          (processLinesFrom settings cfg doc selection n count fence st1).2.lineCache
      ∧ LineCacheInv settings.syntaxStyle
          (processLinesFrom settings cfg doc selection n count fence st2).2.lineCache := by
  intro count
  induction count with
  | zero =>
    intro n fence st1 st2 hseen hvc h1 h2
    exact ⟨rfl, hseen, hvc, h1, h2⟩
  | succ c ih =>
    intro n fence st1 st2 hseen hvc h1 h2
    obtain ⟨hd1, hf1, hsn1, hvc1, hi1, hi2⟩ :=
      processLine_indep settings cfg doc selection n fence st1 st2 hseen hvc h1 h2
    obtain ⟨hd2, hsn2, hvc2, hj1, hj2⟩ := ih (n + 1)
      (processLine settings cfg doc selection n fence st1).2.1
      (processLine settings cfg doc selection n fence st1).2.2
      (processLine settings cfg doc selection n fence st2).2.2 hsn1 hvc1 hi1 hi2
    have hfl : processLinesFrom settings cfg doc selection n (c + 1) fence st1 =
        ((processLine settings cfg doc selection n fence st1).1 ++
          (processLinesFrom settings cfg doc selection (n + 1) c
            (processLine settings cfg doc selection n fence st1).2.1
            (processLine settings cfg doc selection n fence st1).2.2).1,
         (processLinesFrom settings cfg doc selection (n + 1) c
            (processLine settings cfg doc selection n fence st1).2.1
            (processLine settings cfg doc selection n fence st1).2.2).2) := rfl
    have hfr : processLinesFrom settings cfg doc selection n (c + 1) fence st2 =
        ((processLine settings cfg doc selection n fence st2).1 ++
          (processLinesFrom settings cfg doc selection (n + 1) c
            (processLine settings cfg doc selection n fence st2).2.1
            (processLine settings cfg doc selection n fence st2).2.2).1,
         (processLinesFrom settings cfg doc selection (n + 1) c
            (processLine settings cfg doc selection n fence st2).2.1
            (processLine settings cfg doc selection n fence st2).2.2).2) := rfl
    rw [hfl, hfr, ← hf1]
    exact ⟨by rw [hd1, hd2], hsn2, hvc2, hj1, hj2⟩

theorem processRanges_indep (settings : SettingsModel) (cfg : ResolverConfig)
    (doc : List String) (selection : List (Nat × Nat)) :
    ∀ (ranges : List (Nat × Nat)) (st1 st2 : ScanState),
      st1.seenLines = st2.seenLines → st1.valueCache = st2.valueCache →
      LineCacheInv settings.syntaxStyle st1.lineCache →
      LineCacheInv settings.syntaxStyle st2.lineCache →
      (processRanges settings cfg doc selection ranges st1).1 =
        (processRanges settings cfg doc selection ranges st2).1
      ∧ (processRanges settings cfg doc selection ranges st1).2.seenLines =
        (processRanges settings cfg doc selection ranges st2).2.seenLines
      ∧ (processRanges settings cfg doc selection ranges st1).2.valueCache =
        (processRanges settings cfg doc selection ranges st2).2.valueCache
      ∧ LineCacheInv settings.syntaxStyle
          (processRanges settings cfg doc selection ranges st1).2.lineCache
      ∧ LineCacheInv settings.syntaxStyle
          (processRanges settings cfg doc selection ranges st2).2.lineCache := by
  intro ranges
  induction ranges with
  | nil =>
    intro st1 st2 hseen hvc h1 h2
    exact ⟨rfl, hseen, hvc, h1, h2⟩
  | cons r rs ih =>
    intro st1 st2 hseen hvc h1 h2
    obtain ⟨hd1, hsn1, hvc1, hi1, hi2⟩ := processLinesFrom_indep settings cfg doc selection
      (lineAtPos doc (max (r.2 - 1) r.1) + 1 - lineAtPos doc r.1) (lineAtPos doc r.1)
      (getFenceStateBeforeLine doc (lineAtPos doc r.1)) st1 st2 hseen hvc h1 h2
    obtain ⟨hd2, hsn2, hvc2, hj1, hj2⟩ := ih (processRange settings cfg doc selection r st1).2
      (processRange settings cfg doc selection r st2).2 hsn1 hvc1 hi1 hi2
    exact ⟨by
        show (processRange settings cfg doc selection r st1).1 ++ _ = 
          (processRange settings cfg doc selection r st2).1 ++ _
        rw [show (processRange settings cfg doc selection r st1).1 =
            (processRange settings cfg doc selection r st2).1 from hd1, hd2],
      hsn2, hvc2, hj1, hj2⟩

theorem buildDecorations_cache_transparent (settings : SettingsModel) (dateFmt : Nat → String)
    (isLivePreview : Bool) (file : Option TFileModel)
    (frontmatter : Option (List (String × FmValue))) (doc : List String)
    (selection : List (Nat × Nat)) (visibleRanges : List (Nat × Nat)) (force : Bool)
    (lineCache : List (Nat × LineMarkers)) (hlc : LineCacheInv settings.syntaxStyle lineCache) :
    (buildDecorations settings dateFmt isLivePreview file frontmatter doc selection
      visibleRanges force lineCache).1 =
    (buildDecorations settings dateFmt isLivePreview file frontmatter doc selection
      visibleRanges force []).1 := by
  cases isLivePreview with
  | false => rfl
  | true =>
    cases file with
    | none => rfl
    | some f =>
      by_cases hguard : (frontmatter.isNone = true ∧ (!settings.builtInKeysEnabled) = true)
      · have h1 : buildDecorations settings dateFmt true (some f) frontmatter doc selection
            visibleRanges force lineCache = ([], ⟨[], lineCache, []⟩) := by
          simp only [buildDecorations, Bool.not_true, Bool.false_eq_true, if_false]
          rw [if_pos hguard]
        have h2 : buildDecorations settings dateFmt true (some f) frontmatter doc selection
            visibleRanges force [] = ([], ⟨[], [], []⟩) := by
          simp only [buildDecorations, Bool.not_true, Bool.false_eq_true, if_false]
          rw [if_pos hguard]
        rw [h1, h2]
      · have h1 : buildDecorations settings dateFmt true (some f) frontmatter doc selection
            visibleRanges force lineCache =
            processRanges settings
              ⟨frontmatter.getD [], settings.caseInsensitiveKeys, some f,
                settings.builtInKeysEnabled, dateFmt⟩ doc selection
              (if force then [(0, docLength doc)] else visibleRanges)
              ⟨[], lineCache, []⟩ := by
          simp only [buildDecorations, Bool.not_true, Bool.false_eq_true, if_false]
          rw [if_neg hguard]
        have h2 : buildDecorations settings dateFmt true (some f) frontmatter doc selection
            visibleRanges force [] =
            processRanges settings
              ⟨frontmatter.getD [], settings.caseInsensitiveKeys, some f,
                settings.builtInKeysEnabled, dateFmt⟩ doc selection
              (if force then [(0, docLength doc)] else visibleRanges)
              ⟨[], [], []⟩ := by
          simp only [buildDecorations, Bool.not_true, Bool.false_eq_true, if_false]
          rw [if_neg hguard]
        rw [h1, h2]
        exact (processRanges_indep settings _ doc selection _ ⟨[], lineCache, []⟩ ⟨[], [], []⟩
          rfl rfl hlc (fun e he => absurd he (List.not_mem_nil e))).1

/-- Claim C10: the per-line marker cache is transparent — under the
invariant that every entry stores the marker list computed from its stored
text with the current syntax, getLineMarkers returns exactly the fresh scan
of the current line text (an entry is used only when its stored text equals
the current text) and preserves the invariant; the decoration set built
with any invariant cache equals the one built with an empty cache; the
update step clears the cache on a syntax-style change and prunes entries
past the new last line when the document changes; and pruning keeps exactly
the in-range entries, preserving the invariant. -/
theorem C10_line_cache_transparent :
    (∀ (style : SyntaxStyle) (n : Nat) (text : String) (cache : List (Nat × LineMarkers)),
        LineCacheInv style cache →
        (getLineMarkers style n text cache).1 = computeLineMarkers style text
        ∧ LineCacheInv style (getLineMarkers style n text cache).2)
    ∧ (∀ (settings : SettingsModel) (dateFmt : Nat → String) (lp : Bool)
        (file : Option TFileModel) (fm : Option (List (String × FmValue))) (doc : List String)
        (selection : List (Nat × Nat)) (vr : List (Nat × Nat)) (force : Bool)
        (lineCache : List (Nat × LineMarkers)),
        LineCacheInv settings.syntaxStyle lineCache →
        (buildDecorations settings dateFmt lp file fm doc selection vr force lineCache).1 =
        (buildDecorations settings dateFmt lp file fm doc selection vr force []).1)
    ∧ (∀ (settingsStyle : SyntaxStyle) (ps : PluginState) (u : ViewUpdateModel),
        ps.syntaxStyle ≠ settingsStyle → (updateStep settingsStyle ps u).1.lineCache = [])
    ∧ (∀ (settingsStyle : SyntaxStyle) (ps : PluginState) (u : ViewUpdateModel),
        ps.syntaxStyle = settingsStyle → u.docChanged = true →
        (updateStep settingsStyle ps u).1.lineCache =
          pruneLineCache ps.lineCache u.doc.length)
    ∧ (∀ (cache : List (Nat × LineMarkers)) (maxLine : Nat) (e : Nat × LineMarkers),
        e ∈ pruneLineCache cache maxLine ↔ e ∈ cache ∧ e.1 ≤ maxLine)
    ∧ (∀ (style : SyntaxStyle) (cache : List (Nat × LineMarkers)) (maxLine : Nat),
        LineCacheInv style cache → LineCacheInv style (pruneLineCache cache maxLine)) := by
  refine ⟨?_, ?_, ?_, ?_, ?_, ?_⟩
  · intro style n text cache h
    exact getLineMarkers_inv style n text cache h
  · intro settings dateFmt lp file fm doc selection vr force lineCache hlc
    exact buildDecorations_cache_transparent settings dateFmt lp file fm doc selection vr
      force lineCache hlc
  · intro settingsStyle ps u hne
    have hbe : (ps.syntaxStyle == settingsStyle) = false := by
      rw [beq_eq_false_iff_ne]
      exact hne
    simp only [updateStep, hbe, Bool.not_false, if_true]
    cases hd : u.docChanged <;> simp [pruneLineCache]
  · intro settingsStyle ps u heq hd
    have hbe : (ps.syntaxStyle == settingsStyle) = true := by
      rw [beq_iff_eq]
      exact heq
    simp only [updateStep, hbe, Bool.not_true, Bool.false_eq_true, if_false, hd, if_true]
  · intro cache maxLine e
    simp [pruneLineCache, List.mem_filter]
  · intro style cache maxLine h
    intro e he
    rw [pruneLineCache] at he
    exact h e (List.mem_filter.mp he).1

/-- Witness for C10 at a concrete input: a cache holding the correct entry
for line 1 returns exactly the fresh scan and stays invariant. -/
theorem C10_witness :
    (getLineMarkers SyntaxStyle.brackets 1 "[%a]"
        [(1, ⟨"[%a]", computeLineMarkers SyntaxStyle.brackets "[%a]"⟩)]).1 =
      computeLineMarkers SyntaxStyle.brackets "[%a]"
    ∧ LineCacheInv SyntaxStyle.brackets
        (getLineMarkers SyntaxStyle.brackets 1 "[%a]"
          [(1, ⟨"[%a]", computeLineMarkers SyntaxStyle.brackets "[%a]"⟩)]).2 :=
  C10_line_cache_transparent.1 SyntaxStyle.brackets 1 "[%a]"
    [(1, ⟨"[%a]", computeLineMarkers SyntaxStyle.brackets "[%a]"⟩)]
    (fun e he => by
      rcases List.mem_singleton.mp he with rfl
      rfl)
